import Mathlib

/-!
# Verification of the Engram memory store (`internal/store/store.go`)

This file embeds the core of the Engram memory engine in Lean 4 and proves
the specification claims about it.

Modelling conventions:
* Go strings are byte slices; we model them as `List Nat` of byte values
  (`B`).  String literals are converted by `Engram.str`, which performs
  UTF-8 encoding, so multi-byte characters are represented faithfully.
* Go's `strings.Fields` / `strings.TrimSpace` / `strings.ToLower` operate
  on Unicode; we implement their byte-level behaviour restricted to ASCII
  (which coincides with Go on all ASCII inputs, and on non-ASCII inputs
  that contain no non-ASCII whitespace or cased letters).
* SQLite timestamps (`datetime('now')`, second granularity, compared
  textually in the fixed `YYYY-MM-DD HH:MM:SS` format) are modelled as
  `Nat` seconds; textual comparison of well-formed timestamps agrees
  with numeric comparison of seconds.
* SQL `NULL` string columns are `Option B`; Go's `nullableString` maps
  the empty string to `NULL`.
* The SHA-256 digest used by `hashNormalized` is implemented in full
  (over `Nat` words reduced mod 2^32).
-/

namespace Engram

/-- Byte strings: a Go `string` is a byte slice. -/
abbrev B := List Nat

/-- UTF-8 encoding of a single code point. -/
def utf8EncodeChar (c : Nat) : List Nat :=
  if c < 128 then [c]
  else if c < 2048 then [192 + c / 64, 128 + c % 64]
  else if c < 65536 then [224 + c / 4096, 128 + (c / 64) % 64, 128 + c % 64]
  else [240 + c / 262144, 128 + (c / 4096) % 64, 128 + (c / 64) % 64, 128 + c % 64]

/-- Convert a Lean string literal to its Go byte-slice representation. -/
def str (s : String) : B :=
  (s.data.map (fun c => utf8EncodeChar c.toNat)).flatten

/-- ASCII whitespace, as recognised by Go's `unicode.IsSpace` on ASCII bytes. -/
def isSpaceByte (b : Nat) : Bool :=
  b == 32 || b == 9 || b == 10 || b == 11 || b == 12 || b == 13

/-- ASCII lower-casing of one byte (Go `strings.ToLower` on ASCII). -/
def toLowerByte (b : Nat) : Nat :=
  if 65 ≤ b ∧ b ≤ 90 then b + 32 else b

/-- Go `strings.ToLower`, restricted to ASCII letters. -/
def lowerB (s : B) : B := s.map toLowerByte

/-- Go `strings.TrimSpace` (ASCII whitespace). -/
def trimSpace (s : B) : B :=
  ((s.dropWhile isSpaceByte).reverse.dropWhile isSpaceByte).reverse

/-- Accumulator recursion behind `fields`; `acc` holds the reversed bytes of
the word currently being read. -/
def fieldsAux : B → B → List B
  | [], acc => if acc.isEmpty then [] else [acc.reverse]
  | b :: s, acc =>
    if isSpaceByte b then
      if acc.isEmpty then fieldsAux s [] else acc.reverse :: fieldsAux s []
    else fieldsAux s (b :: acc)

/-- Go `strings.Fields`: the maximal whitespace-free substrings. -/
def fields (s : B) : List B := fieldsAux s []

/-- Go `strings.Join`. -/
def joinSep (sep : B) : List B → B
  | [] => []
  | [x] => x
  | x :: xs => x ++ sep ++ joinSep sep xs

/-- Go `strings.Trim(w, "\x22")`: remove all leading and trailing
double-quote bytes. -/
def trimQuotes (w : B) : B :=
  ((w.dropWhile (· == 34)).reverse.dropWhile (· == 34)).reverse

/-- `pat` occurs at the head of `s`. -/
def startsWith : B → B → Bool
  | [], _ => true
  | _ :: _, [] => false
  | p :: ps, s :: ss => p == s && startsWith ps ss

/-- Index of the leftmost occurrence of `pat` in `s` (Go
`strings.Index` / the position where a regexp literal match starts). -/
def findSub (s pat : B) : Option Nat :=
  if startsWith pat s then some 0
  else
    match s with
    | [] => none
    | _ :: rest => (findSub rest pat).map (· + 1)

/-- Go `strings.Contains`. -/
def containsSub (s pat : B) : Bool := (findSub s pat).isSome

/-! ## SHA-256 (FIPS 180-4), on `Nat` words reduced mod 2^32 -/

def w32 (x : Nat) : Nat := x % 4294967296

def rotr32 (n x : Nat) : Nat := w32 ((x >>> n) ||| (x <<< (32 - n)))

def shaCh (e f g : Nat) : Nat := (e &&& f) ^^^ ((e ^^^ 4294967295) &&& g)

def shaMaj (a b c : Nat) : Nat := (a &&& b) ^^^ (a &&& c) ^^^ (b &&& c)

def bigSigma0 (x : Nat) : Nat := (rotr32 2 x) ^^^ (rotr32 13 x) ^^^ (rotr32 22 x)

def bigSigma1 (x : Nat) : Nat := (rotr32 6 x) ^^^ (rotr32 11 x) ^^^ (rotr32 25 x)

def smallSigma0 (x : Nat) : Nat := (rotr32 7 x) ^^^ (rotr32 18 x) ^^^ (x >>> 3)

def smallSigma1 (x : Nat) : Nat := (rotr32 17 x) ^^^ (rotr32 19 x) ^^^ (x >>> 10)

def sha256K : List Nat :=
  [1116352408, 1899447441, 3049323471, 3921009573, 961987163, 1508970993,
   2453635748, 2870763221, 3624381080, 310598401, 607225278, 1426881987,
   1925078388, 2162078206, 2614888103, 3248222580, 3835390401, 4022224774,
   264347078, 604807628, 770255983, 1249150122, 1555081692, 1996064986,
   2554220882, 2821834349, 2952996808, 3210313671, 3336571891, 3584528711,
   113926993, 338241895, 666307205, 773529912, 1294757372, 1396182291,
   1695183700, 1986661051, 2177026350, 2456956037, 2730485921, 2820302411,
   3259730800, 3345764771, 3516065817, 3600352804, 4094571909, 275423344,
   430227734, 506948616, 659060556, 883997877, 958139571, 1322822218,
   1537002063, 1747873779, 1955562222, 2024104815, 2227730452, 2361852424,
   2428436474, 2756734187, 3204031479, 3329325298]

def sha256H0 : List Nat :=
  [1779033703, 3144134277, 1013904242, 2773480762,
   1359893119, 2600822924, 528734635, 1541459225]

/-- Group bytes into 32-bit big-endian words. -/
def bytesToWords : List Nat → List Nat
  | a :: b :: c :: d :: rest => (((a * 256 + b) * 256 + c) * 256 + d) :: bytesToWords rest
  | _ => []

/-- 8-byte big-endian encoding of the bit length. -/
def len64 (n : Nat) : List Nat :=
  [(n >>> 56) % 256, (n >>> 48) % 256, (n >>> 40) % 256, (n >>> 32) % 256,
   (n >>> 24) % 256, (n >>> 16) % 256, (n >>> 8) % 256, n % 256]

/-- SHA-256 message padding. -/
def sha256pad (msg : List Nat) : List Nat :=
  let zeros := (64 + 56 - (msg.length + 1) % 64) % 64
  msg ++ [128] ++ List.replicate zeros 0 ++ len64 (8 * msg.length)

/-- Extend the 16-word block to the 64-word message schedule
(`n` counts the remaining extension steps). -/
def scheduleExt (ws : List Nat) : Nat → List Nat
  | 0 => ws
  | n + 1 =>
    let k := ws.length
    let wi := w32 (smallSigma1 (ws.getD (k - 2) 0) + ws.getD (k - 7) 0 +
                   smallSigma0 (ws.getD (k - 15) 0) + ws.getD (k - 16) 0)
    scheduleExt (ws ++ [wi]) n

/-- One compression round; the state is the 8-word working vector. -/
def sha256round (st : List Nat) (kw : Nat × Nat) : List Nat :=
  match st with
  | [a, b, c, d, e, f, g, h] =>
    let t1 := w32 (h + bigSigma1 e + shaCh e f g + kw.1 + kw.2)
    let t2 := w32 (bigSigma0 a + shaMaj a b c)
    [w32 (t1 + t2), a, b, c, w32 (d + t1), e, f, g]
  | _ => st

/-- Compress one 64-byte block into the hash state. -/
def sha256block (st : List Nat) (block : List Nat) : List Nat :=
  let ws := scheduleExt (bytesToWords block) 48
  let st' := (sha256K.zip ws).foldl sha256round st
  List.zipWith (fun x y => w32 (x + y)) st st'

/-- Split into 64-byte chunks (`fuel` bounds the recursion depth; it is
instantiated with the list length, which always suffices). -/
def chunksAux : Nat → List Nat → List (List Nat)
  | 0, _ => []
  | _, [] => []
  | fuel + 1, l => (l.take 64) :: chunksAux fuel (l.drop 64)

/-- Split into 64-byte chunks. -/
def chunks64 (l : List Nat) : List (List Nat) := chunksAux l.length l

/-- Big-endian bytes of one 32-bit word. -/
def wordBytes (x : Nat) : List Nat :=
  [(x >>> 24) % 256, (x >>> 16) % 256, (x >>> 8) % 256, x % 256]

/-- SHA-256 digest (32 bytes) of a byte string. -/
def sha256 (msg : List Nat) : List Nat :=
  (((chunks64 (sha256pad msg)).foldl sha256block sha256H0).map wordBytes).flatten

/-- One lowercase hex digit. -/
def hexNibble (d : Nat) : Nat := if d < 10 then 48 + d else 87 + d

/-- Lowercase hex encoding of a byte string (Go `hex.EncodeToString`). -/
def hexEncode (bs : List Nat) : B :=
  (bs.map (fun b => [hexNibble (b / 16), hexNibble (b % 16)])).flatten

theorem sha256_abc :
    hexEncode (sha256 (str "abc")) =
      str "ba7816bf8f01cfea414140de5dae2223b00361a396177a9cb410ff61f20015ad" := by
  decide

/-! ## Normalizer and redactor (helpers of `store.go`) -/

/-- Go `nullableString`: the empty string becomes SQL `NULL`. -/
def nullableString (s : B) : Option B := if s.isEmpty then none else some s

/-- Go `derefString`: a nil pointer reads as the empty string. -/
def derefString (v : Option B) : B := v.getD []

/-- SQL `ifnull(x, '')`. -/
def ifnullEmpty (v : Option B) : B := v.getD []

/-- Go `normalizeScope`. -/
def normalizeScope (scope : B) : B :=
  let v := trimSpace (lowerB scope)
  if v = str "personal" then str "personal" else str "project"

/-- Go `normalizeTopicKey`: lower-case, trim, collapse whitespace runs to
single `-`, cap at 120 bytes; empty becomes the empty string. -/
def normalizeTopicKey (topic : B) : B :=
  let v := trimSpace (lowerB topic)
  if v.isEmpty then []
  else
    let v := joinSep (str "-") (fields v)
    if 120 < v.length then v.take 120 else v

/-- Go `hashNormalized`: hex SHA-256 of the content lower-cased with
whitespace runs collapsed to single spaces. -/
def hashNormalized (content : B) : B :=
  hexEncode (sha256 (lowerB (joinSep (str " ") (fields content))))

/-- Go `dedupeWindowExpression`, returning the minute count rendered into
the SQL `-N minutes` modifier.  The Go duration (nanoseconds) is modelled
in seconds; `int(window.Minutes())` truncates. -/
def dedupeWindowMinutes (windowSeconds : Int) : Nat :=
  if windowSeconds ≤ 0 then 15
  else max 1 (windowSeconds / 60).toNat

/-- The private-tag opening literal, lower-cased (9 bytes). -/
def privOpen : B := str "<private>"

/-- The private-tag closing literal, lower-cased (10 bytes). -/
def privClose : B := str "</private>"

/-- One pass of Go's `privateTagRegex.ReplaceAllString(s, "[REDACTED]")`
for the pattern `(?is)<private>.*?</private>`: repeatedly find the
leftmost case-insensitive `<private>`, the nearest following
`</private>` (the lazy `.*?` matches across newlines), and replace the
whole region.  If the opening tag has no closing tag after it the regex
has no match at all and the text is returned unchanged.  `fuel` bounds
the recursion; each replacement consumes at least 19 bytes, so the
initial fuel `s.length` always suffices. -/
def stripAux : Nat → B → B
  | 0, s => s
  | fuel + 1, s =>
    match findSub (lowerB s) privOpen with
    | none => s
    | some i =>
      match findSub (lowerB (s.drop (i + 9))) privClose with
      | none => s
      | some j => s.take i ++ str "[REDACTED]" ++ stripAux fuel (s.drop (i + 9 + j + 10))

/-- Go `stripPrivateTags`: replace every `<private>…</private>` region with
`[REDACTED]`, then trim surrounding whitespace. -/
def stripPrivateTags (s : B) : B := trimSpace (stripAux s.length s)

/-- Go `sanitizeFTS`: split on whitespace, strip surrounding double quotes
from each token, wrap each token in double quotes, join with spaces. -/
def sanitizeFTS (query : B) : B :=
  joinSep (str " ") ((fields query).map (fun w => 34 :: (trimQuotes w ++ [34])))

/-- The content-cap snippet of `AddObservation` / `UpdateObservation` /
`AddPrompt`: byte-level truncation with the literal ASCII suffix
`... [truncated]`. -/
def truncateContent (maxLen : Nat) (content : B) : B :=
  if maxLen < content.length then content.take maxLen ++ str "... [truncated]"
  else content

/-! ## FTS5 MATCH-expression validity (spec-side model)

FTS5 itself is part of SQLite, not of this repository, so validity of a
MATCH expression is modelled from the documented FTS5 query syntax.  The
model covers exactly the sublanguage `sanitizeFTS` can emit — sequences
of double-quoted string literals separated by whitespace, where inside a
string an embedded `"` must be escaped by doubling (an unescaped `"`
terminates the string) — and requires at least one phrase (FTS5 rejects
the empty expression).  Bare tokens outside strings are rejected by the
model; `sanitizeFTS` never emits them except in queries whose tokens
contain unbalanced embedded quotes. -/

inductive FtsLexState
  | outside
  | inString
  | closed
deriving DecidableEq

/-- Lexing automaton for the quoted-phrase sublanguage: `outside` between
phrases, `inString` inside a quoted string, `closed` immediately after a
closing quote (where a further `"` re-opens the string — that is FTS5's
`""` escape).  `n` counts completed phrases. -/
def ftsValidAux : B → FtsLexState → Nat → Bool
  | [], st, n => (st == .outside || st == .closed) && decide (0 < n)
  | b :: rest, .outside, n =>
    if isSpaceByte b then ftsValidAux rest .outside n
    else if b == 34 then ftsValidAux rest .inString n
    else false
  | b :: rest, .inString, n =>
    if b == 34 then ftsValidAux rest .closed (n + 1)
    else ftsValidAux rest .inString n
  | b :: rest, .closed, n =>
    if b == 34 then ftsValidAux rest .inString n
    else if isSpaceByte b then ftsValidAux rest .outside n
    else false

/-- A byte string is a (lexically) valid FTS5 MATCH expression of the
quoted-phrase form. -/
def validFTS5 (q : B) : Bool := ftsValidAux q .outside 0

/-! ## Data model -/

structure Session where
  id : B
  project : B
  directory : B
  startedAt : Nat
  endedAt : Option Nat
  summary : Option B
deriving DecidableEq

structure Obs where
  id : Int
  sessionId : B
  type : B
  title : B
  content : B
  toolName : Option B
  project : Option B
  scope : B
  topicKey : Option B
  normalizedHash : Option B
  revisionCount : Int
  duplicateCount : Int
  lastSeenAt : Option Nat
  createdAt : Nat
  updatedAt : Nat
  deletedAt : Option Nat
deriving DecidableEq

structure Prompt where
  id : Int
  sessionId : B
  content : B
  project : Option B
  createdAt : Nat
deriving DecidableEq

/-- The database state: base tables plus the two `sqlite_sequence`
entries that drive `AUTOINCREMENT` id assignment. -/
structure DB where
  sessions : List Session
  obs : List Obs
  prompts : List Prompt
  obsSeq : Int
  promptSeq : Int
deriving DecidableEq

def emptyDB : DB := ⟨[], [], [], 0, 0⟩

def maxObsId (l : List Obs) : Int := l.foldl (fun m o => max m o.id) 0

/-- `AUTOINCREMENT`: one more than the larger of the sequence value and
the largest rowid present. -/
def nextObsId (db : DB) : Int := max db.obsSeq (maxObsId db.obs) + 1

def maxPromptId (l : List Prompt) : Int := l.foldl (fun m p => max m p.id) 0

def nextPromptId (db : DB) : Int := max db.promptSeq (maxPromptId db.prompts) + 1

structure Config where
  maxObservationLength : Nat
  maxContextResults : Nat
  maxSearchResults : Int
  dedupeWindowSeconds : Int
deriving DecidableEq

/-- `DefaultConfig`: byte cap 2000, context window 20, search cap 20,
dedupe window 15 minutes (900 s). -/
def DefaultConfig : Config := ⟨2000, 20, 20, 900⟩

structure AddObservationParams where
  sessionId : B
  type : B
  title : B
  content : B
  toolName : B
  project : B
  scope : B
  topicKey : B
deriving DecidableEq

/-! ## Write engine -/

/-- `ORDER BY … LIMIT 1` over a filtered row list: the row that strictly
precedes every other candidate under `better`; rows tied under `better`
resolve to the one earlier in table order (SQLite leaves tie order
unspecified; every claim below applies this with at most one candidate). -/
def pickFirstBy (better : Obs → Obs → Bool) : List Obs → Option Obs
  | [] => none
  | o :: rest =>
    match pickFirstBy better rest with
    | none => some o
    | some r => if better r o then some r else some o

/-- Row filter of the topic-upsert lookup in `AddObservation`. -/
def topicRowMatches (topicKey : B) (project : Option B) (scope : B) (o : Obs) : Bool :=
  o.topicKey == some topicKey &&
  ifnullEmpty o.project == ifnullEmpty project &&
  o.scope == scope &&
  o.deletedAt == none

/-- `ORDER BY datetime(updated_at) DESC, datetime(created_at) DESC`. -/
def topicOrderBetter (a b : Obs) : Bool :=
  decide (b.updatedAt < a.updatedAt) ||
  (a.updatedAt == b.updatedAt && decide (b.createdAt < a.createdAt))

def topicLookup (db : DB) (topicKey : B) (project : Option B) (scope : B) : Option Obs :=
  pickFirstBy topicOrderBetter (db.obs.filter (topicRowMatches topicKey project scope))

/-- Row filter of the hash-dedup lookup in `AddObservation`
(`datetime(created_at) >= datetime('now', '-N minutes')`). -/
def dedupRowMatches (windowMinutes : Nat) (now : Nat) (normHash : B) (project : Option B)
    (scope ty title : B) (o : Obs) : Bool :=
  o.normalizedHash == some normHash &&
  ifnullEmpty o.project == ifnullEmpty project &&
  o.scope == scope &&
  o.type == ty &&
  o.title == title &&
  o.deletedAt == none &&
  decide (now ≤ o.createdAt + 60 * windowMinutes)

/-- `ORDER BY created_at DESC`. -/
def dedupOrderBetter (a b : Obs) : Bool := decide (b.createdAt < a.createdAt)

def dedupLookup (cfg : Config) (db : DB) (now : Nat) (normHash : B) (project : Option B)
    (scope ty title : B) : Option Obs :=
  pickFirstBy dedupOrderBetter (db.obs.filter
    (dedupRowMatches (dedupeWindowMinutes cfg.dedupeWindowSeconds) now normHash project scope ty title))

/-- SQL `UPDATE observations SET … WHERE id = ?`. -/
def updateById (rows : List Obs) (id : Int) (f : Obs → Obs) : List Obs :=
  rows.map (fun o => if o.id == id then f o else o)

/-- The topic-upsert `UPDATE` branch of `AddObservation`.  By construction
it never consults the hash-dedup lookup. -/
def topicUpsertApply (db : DB) (now : Nat) (p : AddObservationParams)
    (title content normHash topicKey : B) (existingId : Int) : Int × DB :=
  (existingId,
   { db with obs := updateById db.obs existingId (fun o =>
      { o with type := p.type, title := title, content := content,
               toolName := nullableString p.toolName,
               topicKey := nullableString topicKey,
               normalizedHash := some normHash,
               revisionCount := o.revisionCount + 1,
               lastSeenAt := some now, updatedAt := now }) })

/-- The dedup-absorption `UPDATE` branch of `AddObservation`. -/
def dedupAbsorbApply (db : DB) (now : Nat) (existingId : Int) : Int × DB :=
  (existingId,
   { db with obs := updateById db.obs existingId (fun o =>
      { o with duplicateCount := o.duplicateCount + 1,
               lastSeenAt := some now, updatedAt := now }) })

/-- The fresh-insert branch of `AddObservation`. -/
def insertApply (db : DB) (now : Nat) (p : AddObservationParams)
    (title content scope normHash topicKey : B) : Int × DB :=
  let id := nextObsId db
  (id, { db with
          obs := db.obs ++ [{ id := id, sessionId := p.sessionId, type := p.type,
                              title := title, content := content,
                              toolName := nullableString p.toolName,
                              project := nullableString p.project,
                              scope := scope, topicKey := nullableString topicKey,
                              normalizedHash := some normHash,
                              revisionCount := 1, duplicateCount := 1,
                              lastSeenAt := some now, createdAt := now,
                              updatedAt := now, deletedAt := none }],
          obsSeq := id })

/-- Steps 4–5 of `AddObservation`: hash-dedup lookup, else insert. -/
def dedupPhase (cfg : Config) (db : DB) (now : Nat) (p : AddObservationParams)
    (title content scope normHash topicKey : B) : Int × DB :=
  match dedupLookup cfg db now normHash (nullableString p.project) scope p.type title with
  | some row => dedupAbsorbApply db now row.id
  | none => insertApply db now p title content scope normHash topicKey

/-- `Store.AddObservation` (store.go lines 558–654). -/
def AddObservation (cfg : Config) (db : DB) (now : Nat) (p : AddObservationParams) : Int × DB :=
  let title := stripPrivateTags p.title
  let content := truncateContent cfg.maxObservationLength (stripPrivateTags p.content)
  let scope := normalizeScope p.scope
  let normHash := hashNormalized content
  let topicKey := normalizeTopicKey p.topicKey
  if topicKey.isEmpty then
    dedupPhase cfg db now p title content scope normHash topicKey
  else
    match topicLookup db topicKey (nullableString p.project) scope with
    | some row => topicUpsertApply db now p title content normHash topicKey row.id
    | none => dedupPhase cfg db now p title content scope normHash topicKey

/-- `Store.GetObservation`: the row with the given id, unless soft-deleted. -/
def GetObservation (db : DB) (id : Int) : Option Obs :=
  db.obs.find? (fun o => o.id == id && o.deletedAt == none)

structure UpdateObservationParams where
  type : Option B
  title : Option B
  content : Option B
  project : Option B
  scope : Option B
  topicKey : Option B
deriving DecidableEq

/-- `Store.UpdateObservation` (store.go lines 794–860). -/
def UpdateObservation (cfg : Config) (db : DB) (now : Nat) (id : Int)
    (p : UpdateObservationParams) : Option Obs × DB :=
  match GetObservation db id with
  | none => (none, db)
  | some obs =>
    let ty := match p.type with | some t => t | none => obs.type
    let title := match p.title with | some t => stripPrivateTags t | none => obs.title
    let content := match p.content with
      | some c => truncateContent cfg.maxObservationLength (stripPrivateTags c)
      | none => obs.content
    let project := match p.project with | some v => v | none => derefString obs.project
    let scope := match p.scope with | some v => normalizeScope v | none => obs.scope
    let topicKey := match p.topicKey with
      | some v => normalizeTopicKey v
      | none => derefString obs.topicKey
    let db' := { db with obs := db.obs.map (fun o =>
        if o.id == id && o.deletedAt == none then
          { o with type := ty, title := title, content := content,
                   project := nullableString project, scope := scope,
                   topicKey := nullableString topicKey,
                   normalizedHash := some (hashNormalized content),
                   revisionCount := o.revisionCount + 1, updatedAt := now }
        else o) }
    (GetObservation db' id, db')

/-- The `update_observation` MCP tool handler (`handleUpdate` in
`internal/mcp/mcp.go` lines 682–719): validates the id and that at least
one field is present before calling the store. -/
def handleUpdate (cfg : Config) (db : DB) (now : Nat) (id : Int)
    (p : UpdateObservationParams) : Except B Obs × DB :=
  if id == 0 then (.error (str "id is required"), db)
  else if p.title == none && p.content == none && p.type == none &&
          p.project == none && p.scope == none && p.topicKey == none then
    (.error (str "provide at least one field to update"), db)
  else
    match UpdateObservation cfg db now id p with
    | (none, db') => (.error (str "Failed to update memory"), db')
    | (some o, db') => (.ok o, db')

/-- `Store.DeleteObservation`. -/
def DeleteObservation (db : DB) (now : Nat) (id : Int) (hardDelete : Bool) : DB :=
  if hardDelete then { db with obs := db.obs.filter (fun o => !(o.id == id)) }
  else { db with obs := db.obs.map (fun o =>
    if o.id == id && o.deletedAt == none then
      { o with deletedAt := some now, updatedAt := now }
    else o) }

/-! ## Read engine -/

/-- Insertion into a sorted list (used to model SQL `ORDER BY`). -/
def insertLe {α : Type} (le : α → α → Bool) (a : α) : List α → List α
  | [] => [a]
  | b :: l => if le a b then a :: b :: l else b :: insertLe le a l

/-- Insertion sort modelling SQL `ORDER BY` (tie order among equal keys is
unspecified in SQL; the claims below only rely on membership). -/
def sortLe {α : Type} (le : α → α → Bool) : List α → List α
  | [] => []
  | a :: l => insertLe le a (sortLe le l)

/-- `ORDER BY created_at DESC`. -/
def createdDescLe (a b : Obs) : Bool := decide (b.createdAt ≤ a.createdAt)

/-- `Store.RecentObservations`: live rows, optional project/scope filters,
newest first, limited. -/
def RecentObservations (cfg : Config) (db : DB) (project scope : B) (limit : Int) : List Obs :=
  let limit : Int := if limit ≤ 0 then (cfg.maxContextResults : Int) else limit
  (sortLe createdDescLe (db.obs.filter (fun o =>
      o.deletedAt == none &&
      (project.isEmpty || o.project == some project) &&
      (scope.isEmpty || o.scope == normalizeScope scope)))).take limit.toNat

/-- `Store.AllObservations`: its SQL is identical to
`RecentObservations`, including the limit defaulting. -/
def AllObservations (cfg : Config) (db : DB) (project scope : B) (limit : Int) : List Obs :=
  RecentObservations cfg db project scope limit

/-- `ORDER BY created_at ASC`. -/
def createdAscLe (a b : Obs) : Bool := decide (a.createdAt ≤ b.createdAt)

/-- `Store.SessionObservations`: live rows of one session, oldest first. -/
def SessionObservations (db : DB) (sessionId : B) (limit : Int) : List Obs :=
  let limit : Int := if limit ≤ 0 then 200 else limit
  (sortLe createdAscLe (db.obs.filter (fun o =>
      o.sessionId == sessionId && o.deletedAt == none))).take limit.toNat

structure SearchOptions where
  type : B
  project : B
  scope : B
  limit : Int
deriving DecidableEq

/-- The limit logic at the head of `Search`: default 10, capped at the
configured hard maximum. -/
def searchLimit (cfg : Config) (opts : SearchOptions) : Int :=
  let limit := if opts.limit ≤ 0 then 10 else opts.limit
  if cfg.maxSearchResults < limit then cfg.maxSearchResults else limit

/-- `Store.Search` (store.go lines 987–1047).  The FTS5 `MATCH` operation
lives in SQLite, so `ftsMatch q o` abstracts whether the indexed row of
`o` matches query `q` and `rank o` its FTS5 rank (smaller = better); the
sanitization, the deletion filter, the optional equality filters, the
limit logic and the error on an invalid MATCH expression are modelled
from the source. -/
def Search (ftsMatch : B → Obs → Bool) (rank : Obs → Int) (cfg : Config) (db : DB)
    (query : B) (opts : SearchOptions) : Except B (List Obs) :=
  if validFTS5 (sanitizeFTS query) then
    .ok ((sortLe (fun a b => decide (rank a ≤ rank b)) (db.obs.filter (fun o =>
        ftsMatch (sanitizeFTS query) o && o.deletedAt == none &&
        (opts.type.isEmpty || o.type == opts.type) &&
        (opts.project.isEmpty || o.project == some opts.project) &&
        (opts.scope.isEmpty || o.scope == normalizeScope opts.scope)))).take
          (searchLimit cfg opts).toNat)
  else .error (str "search: fts5 syntax error")

/-- `Store.GetSession`. -/
def GetSession (db : DB) (id : B) : Option Session :=
  db.sessions.find? (fun s => s.id == id)

structure TimelineResult where
  focus : Obs
  before : List Obs
  after : List Obs
  sessionInfo : Option Session
  totalInRange : Nat
deriving DecidableEq

/-- `Store.Timeline` (store.go lines 885–983): the focus observation, up
to `before` live predecessors and `after` live successors by id within
the same session (both in chronological order), the session, and the
live count of the session. -/
def Timeline (db : DB) (observationId : Int) (before after : Int) : Option TimelineResult :=
  let before := if before ≤ 0 then 5 else before
  let after := if after ≤ 0 then 5 else after
  match GetObservation db observationId with
  | none => none
  | some focus =>
    let sessionInfo := GetSession db focus.sessionId
    let beforeRows := (sortLe (fun a b => decide (b.id ≤ a.id)) (db.obs.filter (fun o =>
        o.sessionId == focus.sessionId && decide (o.id < observationId) &&
        o.deletedAt == none))).take before.toNat
    let afterRows := (sortLe (fun a b => decide (a.id ≤ b.id)) (db.obs.filter (fun o =>
        o.sessionId == focus.sessionId && decide (observationId < o.id) &&
        o.deletedAt == none))).take after.toNat
    let total := (db.obs.filter (fun o =>
        o.sessionId == focus.sessionId && o.deletedAt == none)).length
    some ⟨focus, beforeRows.reverse, afterRows, sessionInfo, total⟩

structure StatsResult where
  totalSessions : Nat
  totalObservations : Nat
  totalPrompts : Nat
  projects : List B
deriving DecidableEq

/-- Byte-wise lexicographic order (SQLite default TEXT collation). -/
def lexLtB : B → B → Bool
  | [], [] => false
  | [], _ :: _ => true
  | _ :: _, [] => false
  | a :: as, b :: bs => decide (a < b) || (a == b && lexLtB as bs)

/-- `Store.Stats`: session, live-observation and prompt counts plus the
sorted distinct non-null projects among live observations. -/
def Stats (db : DB) : StatsResult :=
  let live := db.obs.filter (fun o => o.deletedAt == none)
  ⟨db.sessions.length, live.length, db.prompts.length,
   sortLe (fun a b => !(lexLtB b a)) (live.filterMap (fun o => o.project)).dedup⟩

/-! ## Export / Import -/

structure ExportData where
  version : B
  exportedAt : Nat
  sessions : List Session
  observations : List Obs
  prompts : List Prompt
deriving DecidableEq

/-- `Store.Export`: the full dump — sessions by `started_at`,
observations and prompts by id. -/
def Export (db : DB) (now : Nat) : ExportData :=
  ⟨str "0.1.0", now,
   sortLe (fun a b => decide (a.startedAt ≤ b.startedAt)) db.sessions,
   sortLe (fun a b => decide (a.id ≤ b.id)) db.obs,
   sortLe (fun a b => decide (a.id ≤ b.id)) db.prompts⟩

structure ImportResult where
  sessionsImported : Nat
  observationsImported : Nat
  promptsImported : Nat
deriving DecidableEq

/-- Session phase of `Store.Import`: `INSERT OR IGNORE`, dedup on id. -/
def importSessions : List Session → DB → Nat → DB × Nat
  | [], db, n => (db, n)
  | s :: rest, db, n =>
    if db.sessions.any (fun t => t.id == s.id) then importSessions rest db n
    else importSessions rest { db with sessions := db.sessions ++ [s] } (n + 1)

/-- Observation phase of `Store.Import`: each row is inserted with a fresh
`AUTOINCREMENT` id; `scope` and `topic_key` are re-normalized,
`normalized_hash` recomputed from the content, `revision_count` and
`duplicate_count` floored at 1; everything else verbatim.  The
`session_id` foreign key is enforced (`PRAGMA foreign_keys = ON`); a
violation aborts the whole import (`none`, modelling the transaction
rollback). -/
def importObs : List Obs → DB → Nat → Option (DB × Nat)
  | [], db, n => some (db, n)
  | o :: rest, db, n =>
    if db.sessions.any (fun t => t.id == o.sessionId) then
      let id := nextObsId db
      importObs rest
        { db with
          obs := db.obs ++ [{ o with
            id := id,
            scope := normalizeScope o.scope,
            topicKey := nullableString (normalizeTopicKey (derefString o.topicKey)),
            normalizedHash := some (hashNormalized o.content),
            revisionCount := max o.revisionCount 1,
            duplicateCount := max o.duplicateCount 1 }],
          obsSeq := id } (n + 1)
    else none

/-- Prompt phase of `Store.Import`: verbatim rows under fresh ids. -/
def importPrompts : List Prompt → DB → Nat → Option (DB × Nat)
  | [], db, n => some (db, n)
  | p :: rest, db, n =>
    if db.sessions.any (fun t => t.id == p.sessionId) then
      let id := nextPromptId db
      importPrompts rest
        { db with prompts := db.prompts ++ [{ p with id := id }], promptSeq := id } (n + 1)
    else none

/-- `Store.Import` (store.go lines 1206–1274), a single transaction:
`none` models a rollback that leaves the database unchanged. -/
def Import (db : DB) (data : ExportData) : Option (ImportResult × DB) :=
  match importSessions data.sessions db 0 with
  | (db1, ns) =>
    match importObs data.observations db1 0 with
    | none => none
    | some (db2, no) =>
      match importPrompts data.prompts db2 0 with
      | none => none
      | some (db3, np) => some (⟨ns, no, np⟩, db3)

/-! ## Legacy observations migration -/

/-- A row of a legacy `observations` table (no declared primary key on
`id`, so ids may be NULL or duplicated; most columns are nullable).  For
the TEXT timestamp columns, `none` models both SQL NULL and the empty
string (the SQL wraps them in `NULLIF(…, '')`). -/
structure LegacyObs where
  id : Option Int
  sessionId : B
  type : Option B
  title : Option B
  content : Option B
  toolName : Option B
  project : Option B
  scope : Option B
  topicKey : Option B
  normalizedHash : Option B
  revisionCount : Option Int
  duplicateCount : Option Int
  lastSeenAt : Option Nat
  createdAt : Option Nat
  updatedAt : Option Nat
  deletedAt : Option Nat
deriving DecidableEq

/-- The id column of the migration's `INSERT … SELECT`:
`ROW_NUMBER() OVER (PARTITION BY id ORDER BY rowid) = 1` keeps the
original id for the first occurrence of each id; later occurrences and
NULL ids become NULL so `AUTOINCREMENT` assigns fresh values. -/
def keepIdsAux : List LegacyObs → List Int → List (Option Int)
  | [], _ => []
  | l :: rest, seen =>
    match l.id with
    | none => none :: keepIdsAux rest seen
    | some i =>
      if seen.contains i then none :: keepIdsAux rest seen
      else some i :: keepIdsAux rest (i :: seen)

def keepIds (rows : List LegacyObs) : List (Option Int) := keepIdsAux rows []

/-- `COALESCE(NULLIF(x, ''), d)`. -/
def coalesceNonempty (v : Option B) (d : B) : B :=
  match v with
  | none => d
  | some x => if x.isEmpty then d else x

/-- The column coercions of the migration's `INSERT … SELECT`, for one
row with its resolved id. -/
def migrateRow (now : Nat) (l : LegacyObs) (id : Int) : Obs :=
  { id := id,
    sessionId := l.sessionId,
    type := coalesceNonempty l.type (str "manual"),
    title := coalesceNonempty l.title (str "Untitled observation"),
    content := l.content.getD [],
    toolName := l.toolName,
    project := l.project,
    scope := coalesceNonempty l.scope (str "project"),
    topicKey := match l.topicKey with
      | none => none
      | some k => if k.isEmpty then none else some k,
    normalizedHash := l.normalizedHash,
    revisionCount := match l.revisionCount with
      | none => 1
      | some r => if r < 1 then 1 else r,
    duplicateCount := match l.duplicateCount with
      | none => 1
      | some d => if d < 1 then 1 else d,
    lastSeenAt := l.lastSeenAt,
    createdAt := l.createdAt.getD now,
    updatedAt := ((l.updatedAt).orElse (fun _ => l.createdAt)).getD now,
    deletedAt := l.deletedAt }

/-- Row-by-row insertion into the fresh `observations_migrated` table
(initially empty, sequence 0).  An explicit id colliding with an
already-inserted row violates the primary key and aborts the whole
`INSERT … SELECT` (`none`: the transaction rolls back). -/
def migrateInsertAux (now : Nat) :
    List (LegacyObs × Option Int) → List Obs → Int → Option (List Obs × Int)
  | [], acc, seq => some (acc, seq)
  | (l, keep) :: rest, acc, seq =>
    match keep with
    | some i =>
      if acc.any (fun o => o.id == i) then none
      else migrateInsertAux now rest (acc ++ [migrateRow now l i]) (max seq i)
    | none =>
      let i := max seq (maxObsId acc) + 1
      migrateInsertAux now rest (acc ++ [migrateRow now l i]) i

/-- The migrated table together with the rebuilt FTS index. -/
structure MigratedTable where
  obs : List Obs
  seq : Int
  fts : List Obs
deriving DecidableEq

/-- `Store.migrateLegacyObservationsTable` (store.go lines 1364–1494),
restricted to the legacy case: copy every row in rowid order under the
id policy of `keepIds`, then rebuild the FTS index from exactly the rows
with `deleted_at IS NULL`.  `none` models the rolled-back transaction. -/
def migrateLegacyObservationsTable (now : Nat) (rows : List LegacyObs) :
    Option MigratedTable :=
  match migrateInsertAux now (rows.zip (keepIds rows)) [] 0 with
  | none => none
  | some (obs, seq) => some ⟨obs, seq, obs.filter (fun o => o.deletedAt == none)⟩

/-- The observations table as the schema manager sees it: either legacy
(an `id` column that is not a declared primary key) or canonical. -/
inductive ObsTable
  | legacy (rows : List LegacyObs)
  | canonical (t : MigratedTable)
deriving DecidableEq

/-- The guard of `migrateLegacyObservationsTable`: the migration body runs
only when the `id` column exists and is not a declared primary key, so a
canonical table is left untouched and the migration runs at most once
per database. -/
def migrateIfNeeded (now : Nat) : ObsTable → Option ObsTable
  | .canonical t => some (.canonical t)
  | .legacy rows => (migrateLegacyObservationsTable now rows).map .canonical

/-! ## General lemmas about the model -/

theorem mem_insertLe {α : Type} (le : α → α → Bool) (x a : α) :
    ∀ (l : List α), a ∈ insertLe le x l → a = x ∨ a ∈ l := by
  intro l
  induction l with
  | nil =>
    intro h
    simp only [insertLe, List.mem_singleton] at h
    exact Or.inl h
  | cons b l ih =>
    intro h
    simp only [insertLe] at h
    split at h
    · rcases List.mem_cons.mp h with h | h
      · exact Or.inl h
      · exact Or.inr h
    · rcases List.mem_cons.mp h with h | h
      · exact Or.inr (h ▸ List.mem_cons_self b l)
      · rcases ih h with h' | h'
        · exact Or.inl h'
        · exact Or.inr (List.mem_cons_of_mem b h')

theorem mem_sortLe {α : Type} {le : α → α → Bool} {a : α} :
    ∀ (l : List α), a ∈ sortLe le l → a ∈ l := by
  intro l
  induction l with
  | nil => intro h; simp [sortLe] at h
  | cons b l ih =>
    intro h
    simp only [sortLe] at h
    rcases mem_insertLe le b a _ h with h' | h'
    · simp [h']
    · simp [ih h']

theorem exists_of_mem_updateById {rows : List Obs} {id : Int} {f : Obs → Obs} {o : Obs}
    (h : o ∈ updateById rows id f) : ∃ o' ∈ rows, o = o' ∨ o = f o' := by
  unfold updateById at h
  rcases List.mem_map.mp h with ⟨o', ho', hval⟩
  refine ⟨o', ho', ?_⟩
  by_cases hid : (o'.id == id) = true
  · right; rw [← hval]; simp [hid]
  · left; rw [← hval]; simp [hid]

theorem eq_of_mem_nodup_ids {l : List Obs} (hnd : (l.map Obs.id).Nodup) :
    ∀ {x y : Obs}, x ∈ l → y ∈ l → x.id = y.id → x = y := by
  induction l with
  | nil => intro x y hx; simp at hx
  | cons a l ih =>
    intro x y hx hy hid
    simp only [List.map_cons, List.nodup_cons] at hnd
    rcases List.mem_cons.mp hx with hx | hx <;> rcases List.mem_cons.mp hy with hy | hy
    · rw [hx, hy]
    · exfalso
      have h1 : a.id = y.id := by rw [← hx, hid]
      exact hnd.1 (h1.symm ▸ List.mem_map_of_mem Obs.id hy)
    · exfalso
      have h1 : a.id = x.id := by rw [← hy, ← hid]
      exact hnd.1 (h1.symm ▸ List.mem_map_of_mem Obs.id hx)
    · exact ih hnd.2 hx hy hid

theorem init_le_foldl_max (l : List Obs) (init : Int) :
    init ≤ l.foldl (fun m o => max m o.id) init := by
  induction l generalizing init with
  | nil => simp
  | cons a l ih =>
    simp only [List.foldl_cons]
    exact le_trans (le_max_left init a.id) (ih (max init a.id))

theorem le_foldl_max {l : List Obs} {o : Obs} (h : o ∈ l) (init : Int) :
    o.id ≤ l.foldl (fun m o => max m o.id) init := by
  induction l generalizing init with
  | nil => simp at h
  | cons a l ih =>
    simp only [List.foldl_cons]
    rcases List.mem_cons.mp h with h | h
    · subst h
      exact le_trans (le_max_right init o.id) (init_le_foldl_max l _)
    · exact ih h _

theorem id_le_maxObsId {l : List Obs} {o : Obs} (h : o ∈ l) : o.id ≤ maxObsId l :=
  le_foldl_max h 0

theorem id_lt_nextObsId {db : DB} {o : Obs} (h : o ∈ db.obs) : o.id < nextObsId db := by
  have h1 := id_le_maxObsId h
  have h2 : maxObsId db.obs ≤ max db.obsSeq (maxObsId db.obs) := le_max_right _ _
  unfold nextObsId
  omega

/-! ## Claim C9 -/

/-- **C9** (error_handling): a call to `update_observation` in which every
optional field (`type`, `title`, `content`, `project`, `scope`,
`topic_key`) is null is rejected with a validation error by the MCP
handler before the store is reached, and the database — in particular
every row's `revision_count` and `updated_at` — is left unchanged. -/
theorem updateObservation_rejects_all_null (cfg : Config) (db : DB) (now : Nat)
    (id : Int) (p : UpdateObservationParams)
    (h : p = ⟨none, none, none, none, none, none⟩) :
    ((handleUpdate cfg db now id p).1 = .error (str "id is required") ∨
     (handleUpdate cfg db now id p).1 = .error (str "provide at least one field to update")) ∧
    (handleUpdate cfg db now id p).2 = db := by
  subst h
  unfold handleUpdate
  by_cases hid : (id == 0) = true
  · simp [hid]
  · simp [hid]

/-- Sample row used by witnesses. -/
def sampleObs : Obs :=
  { id := 1, sessionId := str "s1", type := str "note", title := str "T",
    content := str "same content", toolName := none, project := none,
    scope := str "project", topicKey := none,
    normalizedHash := some (hashNormalized (str "same content")),
    revisionCount := 1, duplicateCount := 1, lastSeenAt := some 0,
    createdAt := 0, updatedAt := 0, deletedAt := none }

/-- Sample database with the one live row `sampleObs`. -/
def sampleDB : DB := ⟨[⟨str "s1", str "p", str "d", 0, none, none⟩], [sampleObs], [], 1, 0⟩

theorem updateObservation_rejects_all_null_witness :
    ((handleUpdate DefaultConfig sampleDB 5 1 ⟨none, none, none, none, none, none⟩).1 =
        .error (str "id is required") ∨
     (handleUpdate DefaultConfig sampleDB 5 1 ⟨none, none, none, none, none, none⟩).1 =
        .error (str "provide at least one field to update")) ∧
    (handleUpdate DefaultConfig sampleDB 5 1 ⟨none, none, none, none, none, none⟩).2 =
      sampleDB :=
  updateObservation_rejects_all_null DefaultConfig sampleDB 5 1 _ rfl

/-! ## Claim C10 -/

/-- **C10** (frame_effect): when `add_observation` is called with a
non-empty normalized `topic_key` that matches no existing row, the
hash-dedup branch is still evaluated; when that branch matches row `r`,
the call returns `r.id` and performs exactly the dedup `UPDATE`
(incrementing `duplicate_count` and refreshing `last_seen_at` and
`updated_at`), so every row's `topic_key`, `type`, `title`, `content`,
`tool_name` and `normalized_hash` are unchanged — the caller's supplied
`topic_key` is stored nowhere. -/
theorem addObservation_topic_miss_hash_hit (cfg : Config) (db : DB) (now : Nat)
    (p : AddObservationParams) (r : Obs)
    (hk : normalizeTopicKey p.topicKey ≠ [])
    (ht : topicLookup db (normalizeTopicKey p.topicKey) (nullableString p.project)
            (normalizeScope p.scope) = none)
    (hd : dedupLookup cfg db now
            (hashNormalized (truncateContent cfg.maxObservationLength (stripPrivateTags p.content)))
            (nullableString p.project) (normalizeScope p.scope) p.type
            (stripPrivateTags p.title) = some r) :
    AddObservation cfg db now p =
      (r.id, { db with obs := updateById db.obs r.id (fun o =>
        { o with duplicateCount := o.duplicateCount + 1,
                 lastSeenAt := some now, updatedAt := now }) }) ∧
    ∀ o ∈ (AddObservation cfg db now p).2.obs, ∃ o' ∈ db.obs,
      o.id = o'.id ∧ o.topicKey = o'.topicKey ∧ o.type = o'.type ∧ o.title = o'.title ∧
      o.content = o'.content ∧ o.toolName = o'.toolName ∧
      o.normalizedHash = o'.normalizedHash := by
  have hke : (normalizeTopicKey p.topicKey).isEmpty = false := by
    cases hnt : normalizeTopicKey p.topicKey with
    | nil => exact absurd hnt hk
    | cons a l => rfl
  have hmain : AddObservation cfg db now p =
      (r.id, { db with obs := updateById db.obs r.id (fun o =>
        { o with duplicateCount := o.duplicateCount + 1,
                 lastSeenAt := some now, updatedAt := now }) }) := by
    unfold AddObservation
    simp only [hke, Bool.false_eq_true, if_false, ht, dedupPhase, hd,
      dedupAbsorbApply]
  refine ⟨hmain, ?_⟩
  intro o ho
  rw [hmain] at ho
  rcases exists_of_mem_updateById ho with ⟨o', ho', heq | heq⟩
  · exact ⟨o', ho', by simp [heq]⟩
  · exact ⟨o', ho', by simp [heq]⟩

/-- Parameters used by the C10 witness: a fresh topic key over content
identical to `sampleObs`. -/
def c10Params : AddObservationParams :=
  ⟨str "s1", str "note", str "T", str "same content", [], [], [], str "new topic"⟩

/-! ## Claim C6 -/

theorem filter_pred_of_mem_take_sortLe {le : Obs → Obs → Bool} {p : Obs → Bool}
    {l : List Obs} {n : Nat} {o : Obs}
    (h : o ∈ (sortLe le (l.filter p)).take n) : p o = true :=
  (List.mem_filter.mp (mem_sortLe _ (List.take_subset _ _ h))).2

/-- **C6** (invariants): an observation whose `deleted_at` is non-null is
excluded from every read path: `Search`, `RecentObservations`,
`AllObservations`, `SessionObservations`, both the before and after arms
of `Timeline`, and `Stats.total_observations`; `GetObservation` on its
id reports not-found. -/
theorem deleted_observation_invisible (cfg : Config) (db : DB) (o : Obs) (d : Nat)
    (ho : o ∈ db.obs) (hd : o.deletedAt = some d)
    (hnd : (db.obs.map Obs.id).Nodup) :
    (∀ (ftsMatch : B → Obs → Bool) (rank : Obs → Int) (q : B) (opts : SearchOptions)
        (l : List Obs), Search ftsMatch rank cfg db q opts = .ok l → o ∉ l) ∧
    (∀ project scope limit, o ∉ RecentObservations cfg db project scope limit) ∧
    (∀ project scope limit, o ∉ AllObservations cfg db project scope limit) ∧
    (∀ sid limit, o ∉ SessionObservations db sid limit) ∧
    GetObservation db o.id = none ∧
    (∀ fid b a r, Timeline db fid b a = some r → o ∉ r.before ∧ o ∉ r.after) ∧
    ((Stats db).totalObservations = (db.obs.filter (fun x => x.deletedAt == none)).length ∧
      o ∉ db.obs.filter (fun x => x.deletedAt == none)) := by
  have hlive : (o.deletedAt == none) = false := by simp [hd]
  refine ⟨?_, ?_, ?_, ?_, ?_, ?_, ?_, ?_⟩
  · intro ftsMatch rank q opts l hok hmem
    unfold Search at hok
    by_cases hv : validFTS5 (sanitizeFTS q) = true
    · rw [if_pos hv] at hok
      injection hok with h
      subst h
      have := filter_pred_of_mem_take_sortLe hmem
      simp [hlive] at this
    · rw [if_neg hv] at hok
      exact Except.noConfusion hok
  · intro project scope limit hmem
    have := filter_pred_of_mem_take_sortLe hmem
    simp [hlive] at this
  · intro project scope limit hmem
    have := filter_pred_of_mem_take_sortLe hmem
    simp [hlive] at this
  · intro sid limit hmem
    have := filter_pred_of_mem_take_sortLe hmem
    simp [hlive] at this
  · cases hg : GetObservation db o.id with
    | none => rfl
    | some x =>
      exfalso
      have hpred := List.find?_some hg
      have hmem := List.mem_of_find?_eq_some hg
      simp only [Bool.and_eq_true, beq_iff_eq] at hpred
      have hxo : x = o := eq_of_mem_nodup_ids hnd hmem ho hpred.1
      rw [hxo] at hpred
      rw [hd] at hpred
      exact Option.some_ne_none d (by simpa using hpred.2)
  · intro fid b a r htl
    unfold Timeline at htl
    cases hg : GetObservation db fid with
    | none => rw [hg] at htl; exact absurd htl (by simp)
    | some focus =>
      rw [hg] at htl
      simp only [Option.some.injEq] at htl
      subst htl
      constructor
      · intro hmem
        rw [List.mem_reverse] at hmem
        have := filter_pred_of_mem_take_sortLe hmem
        simp [hlive] at this
      · intro hmem
        have := filter_pred_of_mem_take_sortLe hmem
        simp [hlive] at this
  · rfl
  · intro hmem
    have := (List.mem_filter.mp hmem).2
    simp [hlive] at this

/-- A soft-deleted sample row. -/
def sampleDeadObs : Obs :=
  { id := 2, sessionId := str "s1", type := str "note", title := str "gone",
    content := str "deleted content", toolName := none, project := none,
    scope := str "project", topicKey := none, normalizedHash := none,
    revisionCount := 1, duplicateCount := 1, lastSeenAt := none,
    createdAt := 1, updatedAt := 3, deletedAt := some 3 }

/-- Sample database with one live and one soft-deleted row. -/
def sampleDB2 : DB :=
  ⟨[⟨str "s1", str "p", str "d", 0, none, none⟩], [sampleObs, sampleDeadObs], [], 2, 0⟩

theorem deleted_observation_invisible_witness :
    (∀ (ftsMatch : B → Obs → Bool) (rank : Obs → Int) (q : B) (opts : SearchOptions)
        (l : List Obs), Search ftsMatch rank DefaultConfig sampleDB2 q opts = .ok l →
          sampleDeadObs ∉ l) ∧
    (∀ project scope limit,
        sampleDeadObs ∉ RecentObservations DefaultConfig sampleDB2 project scope limit) ∧
    (∀ project scope limit,
        sampleDeadObs ∉ AllObservations DefaultConfig sampleDB2 project scope limit) ∧
    (∀ sid limit, sampleDeadObs ∉ SessionObservations sampleDB2 sid limit) ∧
    GetObservation sampleDB2 sampleDeadObs.id = none ∧
    (∀ fid b a r, Timeline sampleDB2 fid b a = some r →
        sampleDeadObs ∉ r.before ∧ sampleDeadObs ∉ r.after) ∧
    ((Stats sampleDB2).totalObservations =
        (sampleDB2.obs.filter (fun x => x.deletedAt == none)).length ∧
      sampleDeadObs ∉ sampleDB2.obs.filter (fun x => x.deletedAt == none)) :=
  deleted_observation_invisible DefaultConfig sampleDB2 sampleDeadObs 3
    (by decide) (by decide) (by decide)

theorem addObservation_topic_miss_hash_hit_witness :
    AddObservation DefaultConfig sampleDB 10 c10Params =
      (sampleObs.id, { sampleDB with obs := updateById sampleDB.obs sampleObs.id (fun o =>
        { o with duplicateCount := o.duplicateCount + 1,
                 lastSeenAt := some 10, updatedAt := 10 }) }) ∧
    ∀ o ∈ (AddObservation DefaultConfig sampleDB 10 c10Params).2.obs, ∃ o' ∈ sampleDB.obs,
      o.id = o'.id ∧ o.topicKey = o'.topicKey ∧ o.type = o'.type ∧ o.title = o'.title ∧
      o.content = o'.content ∧ o.toolName = o'.toolName ∧
      o.normalizedHash = o'.normalizedHash :=
  addObservation_topic_miss_hash_hit DefaultConfig sampleDB 10 c10Params sampleObs
    (by decide) (by decide) (by decide)

/-! ## Claim C3 -/

theorem lowerB_length (s : B) : (lowerB s).length = s.length := by
  simp [lowerB]

theorem lowerB_append (s t : B) : lowerB (s ++ t) = lowerB s ++ lowerB t := by
  simp [lowerB]

theorem findSub_nil (pat : B) :
    findSub [] pat = if startsWith pat [] then some 0 else none := rfl

theorem findSub_cons (c : Nat) (s pat : B) :
    findSub (c :: s) pat =
      if startsWith pat (c :: s) then some 0 else (findSub s pat).map (· + 1) := rfl

theorem startsWith_eq : ∀ (pat s : B), startsWith pat s = true ↔ ∃ t, s = pat ++ t := by
  intro pat
  induction pat with
  | nil =>
    intro s
    simp [startsWith]
  | cons p ps ih =>
    intro s
    cases s with
    | nil =>
      simp [startsWith]
    | cons c ss =>
      simp only [startsWith, Bool.and_eq_true, beq_iff_eq]
      constructor
      · rintro ⟨rfl, h⟩
        rcases (ih ss).mp h with ⟨t, rfl⟩
        exact ⟨t, rfl⟩
      · rintro ⟨t, ht⟩
        rw [List.cons_append, List.cons.injEq] at ht
        obtain ⟨rfl, rfl⟩ := ht
        exact ⟨rfl, (ih _).mpr ⟨t, rfl⟩⟩

theorem findSub_none_startsWith : ∀ (s pat : B), findSub s pat = none →
    ∀ p, startsWith pat (s.drop p) = false := by
  intro s
  induction s with
  | nil =>
    intro pat h p
    rw [List.drop_nil]
    rw [findSub_nil] at h
    by_cases hs : startsWith pat [] = true
    · rw [if_pos hs] at h
      exact absurd h (by simp)
    · exact Bool.eq_false_iff.mpr hs
  | cons c ss ih =>
    intro pat h p
    rw [findSub_cons] at h
    by_cases hs : startsWith pat (c :: ss) = true
    · rw [if_pos hs] at h
      exact absurd h (by simp)
    · rw [if_neg hs] at h
      have h' : findSub ss pat = none := by
        cases hfs : findSub ss pat with
        | none => rfl
        | some k => rw [hfs] at h; exact absurd h (by simp)
      cases p with
      | zero => exact Bool.eq_false_iff.mpr hs
      | succ q => rw [List.drop_succ_cons]; exact ih pat h' q

theorem findSub_append : ∀ (a y pat : B),
    startsWith pat y = true →
    (∀ p, p < a.length → startsWith pat ((a ++ y).drop p) = false) →
    findSub (a ++ y) pat = some a.length := by
  intro a
  induction a with
  | nil =>
    intro y pat hy _
    rw [List.nil_append]
    cases y with
    | nil => simp [findSub_nil, hy]
    | cons c ys => simp [findSub_cons, hy]
  | cons c a' ih =>
    intro y pat hy hno
    rw [List.cons_append, findSub_cons]
    have h0 : startsWith pat (c :: (a' ++ y)) = false := by
      have := hno 0 (by simp)
      simpa using this
    rw [if_neg (by simp [h0])]
    have hrec : findSub (a' ++ y) pat = some a'.length := by
      refine ih y pat hy ?_
      intro p hp
      have := hno (p + 1) (by simpa using Nat.succ_lt_succ hp)
      simpa using this
    rw [hrec]
    rfl

theorem no_spanning (a t pat : B)
    (hnone : findSub a pat = none)
    (hov : ∀ d, d < pat.length → 0 < d → pat.take (pat.length - d) ≠ pat.drop d) :
    ∀ p, p < a.length → startsWith pat ((a ++ (pat ++ t)).drop p) = false := by
  intro p hp
  cases hsw : startsWith pat ((a ++ (pat ++ t)).drop p) with
  | false => rfl
  | true =>
    exfalso
    rw [List.drop_append_of_le_length (le_of_lt hp)] at hsw
    rcases (startsWith_eq pat _).mp hsw with ⟨t', ht'⟩
    have hlen : (a.drop p).length = a.length - p := List.length_drop _ _
    by_cases hd : pat.length ≤ (a.drop p).length
    · have htake : (a.drop p ++ (pat ++ t)).take pat.length =
          (a.drop p).take pat.length := List.take_append_of_le_length hd
      have hpat : (a.drop p).take pat.length = pat := by
        rw [← htake, ht', List.take_left]
      have hstart : startsWith pat (a.drop p) = true :=
        (startsWith_eq pat _).mpr ⟨(a.drop p).drop pat.length, by
          conv_lhs => rw [← List.take_append_drop pat.length (a.drop p)]
          rw [hpat]⟩
      rw [findSub_none_startsWith a pat hnone p] at hstart
      exact absurd hstart (by simp)
    · push_neg at hd
      have hd0 : 0 < (a.drop p).length := by omega
      have h1 : (a.drop p ++ (pat ++ t)).take pat.length =
          a.drop p ++ (pat ++ t).take (pat.length - (a.drop p).length) := by
        rw [List.take_append_eq_append_take, List.take_of_length_le (le_of_lt hd)]
      have h2 : (pat ++ t).take (pat.length - (a.drop p).length) =
          pat.take (pat.length - (a.drop p).length) :=
        List.take_append_of_le_length (Nat.sub_le _ _)
      have hpat : a.drop p ++ pat.take (pat.length - (a.drop p).length) = pat := by
        rw [← h2, ← h1, ht', List.take_left]
      have hdrop : pat.drop (a.drop p).length =
          pat.take (pat.length - (a.drop p).length) := by
        conv_lhs => rw [← hpat]
        exact List.drop_left _ _
      exact hov (a.drop p).length hd hd0 hdrop.symm

theorem privOpen_noOverlap :
    ∀ d, d < privOpen.length → 0 < d →
      privOpen.take (privOpen.length - d) ≠ privOpen.drop d := by decide

theorem privClose_noOverlap :
    ∀ d, d < privClose.length → 0 < d →
      privClose.take (privClose.length - d) ≠ privClose.drop d := by decide

theorem startsWith_self_append (pat t : B) : startsWith pat (pat ++ t) = true :=
  (startsWith_eq pat _).mpr ⟨t, rfl⟩

theorem findSub_clean_append (a t pat : B)
    (hnone : findSub a pat = none)
    (hov : ∀ d, d < pat.length → 0 < d → pat.take (pat.length - d) ≠ pat.drop d) :
    findSub (a ++ (pat ++ t)) pat = some a.length :=
  findSub_append a (pat ++ t) pat (startsWith_self_append pat t)
    (no_spanning a t pat hnone hov)

theorem stripAux_succ_def (fuel : Nat) (s : B) :
    stripAux (fuel + 1) s =
      match findSub (lowerB s) privOpen with
      | none => s
      | some i =>
        match findSub (lowerB (s.drop (i + 9))) privClose with
        | none => s
        | some j =>
          s.take i ++ str "[REDACTED]" ++ stripAux fuel (s.drop (i + 9 + j + 10)) := rfl

theorem stripAux_succ_none (fuel : Nat) {s : B}
    (h : findSub (lowerB s) privOpen = none) :
    stripAux (fuel + 1) s = s := by
  rw [stripAux_succ_def, h]

theorem stripAux_succ_noclose (fuel : Nat) {s : B} {i : Nat}
    (h : findSub (lowerB s) privOpen = some i)
    (hc : findSub (lowerB (s.drop (i + 9))) privClose = none) :
    stripAux (fuel + 1) s = s := by
  rw [stripAux_succ_def, h]
  simp only [hc]

theorem stripAux_succ_some (fuel : Nat) {s : B} {i j : Nat}
    (h : findSub (lowerB s) privOpen = some i)
    (hc : findSub (lowerB (s.drop (i + 9))) privClose = some j) :
    stripAux (fuel + 1) s =
      s.take i ++ str "[REDACTED]" ++ stripAux fuel (s.drop (i + 9 + j + 10)) := by
  rw [stripAux_succ_def, h]
  simp only [hc]

theorem stripAux_step (a u x v b : B)
    (hu : lowerB u = privOpen) (hv : lowerB v = privClose)
    (ha : findSub (lowerB a) privOpen = none)
    (hx : findSub (lowerB x) privClose = none) (fuel : Nat) :
    stripAux (fuel + 1) (a ++ u ++ x ++ v ++ b) =
      a ++ str "[REDACTED]" ++ stripAux fuel b := by
  have hul : u.length = 9 := by
    have := congrArg List.length hu
    rw [lowerB_length] at this
    simpa using this
  have hvl : v.length = 10 := by
    have := congrArg List.length hv
    rw [lowerB_length] at this
    simpa using this
  have hassoc : a ++ u ++ x ++ v ++ b = a ++ (u ++ (x ++ (v ++ b))) := by
    simp [List.append_assoc]
  have hlow : lowerB (a ++ (u ++ (x ++ (v ++ b)))) =
      lowerB a ++ (privOpen ++ (lowerB x ++ (privClose ++ lowerB b))) := by
    simp only [lowerB_append, hu, hv]
  have hopen : findSub (lowerB (a ++ (u ++ (x ++ (v ++ b))))) privOpen =
      some a.length := by
    rw [hlow]
    have := findSub_clean_append (lowerB a)
      (lowerB x ++ (privClose ++ lowerB b)) privOpen ha privOpen_noOverlap
    rw [this]
    rw [lowerB_length]
  have hdrop1 : (a ++ (u ++ (x ++ (v ++ b)))).drop (a.length + 9) =
      x ++ (v ++ b) := by
    have : a ++ (u ++ (x ++ (v ++ b))) = (a ++ u) ++ (x ++ (v ++ b)) := by
      simp [List.append_assoc]
    rw [this]
    have hl : (a ++ u).length = a.length + 9 := by simp [hul]
    rw [← hl]
    exact List.drop_left _ _
  have hclose : findSub (lowerB (x ++ (v ++ b))) privClose = some x.length := by
    rw [lowerB_append, lowerB_append, hv]
    have := findSub_clean_append (lowerB x) (lowerB b) privClose hx privClose_noOverlap
    rw [this, lowerB_length]
  have hdrop2 : (a ++ (u ++ (x ++ (v ++ b)))).drop (a.length + 9 + x.length + 10) =
      b := by
    have : a ++ (u ++ (x ++ (v ++ b))) = (a ++ u ++ x ++ v) ++ b := by
      simp [List.append_assoc]
    rw [this]
    have hl : (a ++ u ++ x ++ v).length = a.length + 9 + x.length + 10 := by
      simp [hul, hvl]
      omega
    rw [← hl]
    exact List.drop_left _ _
  have htake : (a ++ (u ++ (x ++ (v ++ b)))).take a.length = a := by
    rw [List.take_append_of_le_length (le_refl _), List.take_length]
  have hclose' : findSub (lowerB ((a ++ (u ++ (x ++ (v ++ b)))).drop (a.length + 9)))
      privClose = some x.length := by
    rw [hdrop1]
    exact hclose
  rw [hassoc, stripAux_succ_some fuel hopen hclose', htake, hdrop2]

theorem stripAux_fuel_eq : ∀ (n : Nat) (s : B) (fuel : Nat),
    s.length ≤ n → s.length ≤ fuel → stripAux fuel s = stripAux s.length s := by
  intro n
  induction n with
  | zero =>
    intro s fuel h0 _
    have hs : s = [] := List.length_eq_zero.mp (Nat.le_zero.mp h0)
    subst hs
    cases fuel with
    | zero => rfl
    | succ f =>
      have hnone : findSub (lowerB ([] : B)) privOpen = none := by decide
      rw [stripAux_succ_none f hnone]
      rfl
  | succ n ih =>
    intro s fuel h0 hf
    cases fuel with
    | zero =>
      have : s.length = 0 := Nat.le_zero.mp hf
      rw [this]
    | succ f =>
      cases hsl : s.length with
      | zero =>
        have hs : s = [] := List.length_eq_zero.mp hsl
        subst hs
        have hnone : findSub (lowerB ([] : B)) privOpen = none := by decide
        rw [stripAux_succ_none f hnone]
        rfl
      | succ m =>
        cases hop : findSub (lowerB s) privOpen with
        | none => rw [stripAux_succ_none f hop, stripAux_succ_none m hop]
        | some i =>
          cases hcl : findSub (lowerB (s.drop (i + 9))) privClose with
          | none => rw [stripAux_succ_noclose f hop hcl, stripAux_succ_noclose m hop hcl]
          | some j =>
            rw [stripAux_succ_some f hop hcl, stripAux_succ_some m hop hcl]
            have hdl : (s.drop (i + 9 + j + 10)).length = s.length - (i + 9 + j + 10) :=
              List.length_drop _ _
            have hd : (s.drop (i + 9 + j + 10)).length ≤ n := by omega
            have hf' : (s.drop (i + 9 + j + 10)).length ≤ f := by omega
            have hm : (s.drop (i + 9 + j + 10)).length ≤ m := by omega
            rw [ih _ f hd hf', ih _ m hd hm]

theorem stripPrivateTags_region (a u x v b : B)
    (hu : lowerB u = privOpen) (hv : lowerB v = privClose)
    (ha : findSub (lowerB a) privOpen = none)
    (hx : findSub (lowerB x) privClose = none) :
    stripPrivateTags (a ++ u ++ x ++ v ++ b) =
      trimSpace (a ++ str "[REDACTED]" ++ stripAux b.length b) := by
  have hul : u.length = 9 := by
    have := congrArg List.length hu
    rw [lowerB_length] at this
    simpa using this
  have hvl : v.length = 10 := by
    have := congrArg List.length hv
    rw [lowerB_length] at this
    simpa using this
  have hlen : (a ++ u ++ x ++ v ++ b).length =
      a.length + 9 + x.length + 10 + b.length := by
    simp [hul, hvl]
    omega
  obtain ⟨n, hn⟩ : ∃ n, (a ++ u ++ x ++ v ++ b).length = n + 1 :=
    ⟨(a ++ u ++ x ++ v ++ b).length - 1, by omega⟩
  unfold stripPrivateTags
  rw [hn, stripAux_step a u x v b hu hv ha hx n]
  have hb : b.length ≤ n := by omega
  rw [stripAux_fuel_eq n b n hb hb]

/-- **C3 amended** (functional_correctness): `stripPrivateTags` replaces
each region between a case-insensitive `<private>` and the nearest
following case-insensitive `</private>` (matching across line breaks)
with the literal token `[REDACTED]` and trims surrounding whitespace,
and `AddObservation` persists every freshly written title and content
only in this processed form (rows it leaves alone keep a pre-existing
title/content pair).  The claim's consequence is false: text outside
the tags survives redaction, so a copy of the secret X placed outside
`<private>…</private>` is persisted (see the counterexample). -/
theorem stripPrivateTags_redaction (a u x v b : B)
    (hu : lowerB u = privOpen) (hv : lowerB v = privClose)
    (ha : findSub (lowerB a) privOpen = none)
    (hx : findSub (lowerB x) privClose = none) :
    stripPrivateTags (a ++ u ++ x ++ v ++ b) =
      trimSpace (a ++ str "[REDACTED]" ++ stripAux b.length b) ∧
    (∀ (cfg : Config) (db : DB) (now : Nat) (p : AddObservationParams),
      ∀ o ∈ (AddObservation cfg db now p).2.obs,
        (o.title = stripPrivateTags p.title ∧
         o.content = truncateContent cfg.maxObservationLength (stripPrivateTags p.content)) ∨
        ∃ o' ∈ db.obs, o.title = o'.title ∧ o.content = o'.content) := by
  refine ⟨stripPrivateTags_region a u x v b hu hv ha hx, ?_⟩
  intro cfg db now p o ho
  unfold AddObservation at ho
  by_cases hke : (normalizeTopicKey p.topicKey).isEmpty = true
  · simp only [hke, if_true] at ho
    cases hdl : dedupLookup cfg db now
        (hashNormalized (truncateContent cfg.maxObservationLength (stripPrivateTags p.content)))
        (nullableString p.project) (normalizeScope p.scope) p.type
        (stripPrivateTags p.title) with
    | some r =>
      simp only [dedupPhase, hdl, dedupAbsorbApply] at ho
      rcases exists_of_mem_updateById ho with ⟨o', ho', heq | heq⟩
      · exact Or.inr ⟨o', ho', by rw [heq], by rw [heq]⟩
      · exact Or.inr ⟨o', ho', by rw [heq], by rw [heq]⟩
    | none =>
      simp only [dedupPhase, hdl, insertApply] at ho
      rcases List.mem_append.mp ho with h | h
      · exact Or.inr ⟨o, h, rfl, rfl⟩
      · simp only [List.mem_singleton] at h
        exact Or.inl ⟨by rw [h], by rw [h]⟩
  · simp only [hke, if_false] at ho
    cases htl : topicLookup db (normalizeTopicKey p.topicKey) (nullableString p.project)
        (normalizeScope p.scope) with
    | some r =>
      simp only [htl, topicUpsertApply] at ho
      rcases exists_of_mem_updateById ho with ⟨o', ho', heq | heq⟩
      · exact Or.inr ⟨o', ho', by rw [heq], by rw [heq]⟩
      · exact Or.inl ⟨by rw [heq], by rw [heq]⟩
    | none =>
      simp only [htl] at ho
      cases hdl : dedupLookup cfg db now
          (hashNormalized (truncateContent cfg.maxObservationLength (stripPrivateTags p.content)))
          (nullableString p.project) (normalizeScope p.scope) p.type
          (stripPrivateTags p.title) with
      | some r =>
        simp only [dedupPhase, hdl, dedupAbsorbApply] at ho
        rcases exists_of_mem_updateById ho with ⟨o', ho', heq | heq⟩
        · exact Or.inr ⟨o', ho', by rw [heq], by rw [heq]⟩
        · exact Or.inr ⟨o', ho', by rw [heq], by rw [heq]⟩
      | none =>
        simp only [dedupPhase, hdl, insertApply] at ho
        rcases List.mem_append.mp ho with h | h
        · exact Or.inr ⟨o, h, rfl, rfl⟩
        · simp only [List.mem_singleton] at h
          exact Or.inl ⟨by rw [h], by rw [h]⟩

/-- An `add_observation` request whose content is `a<private>a</private>`:
the secret X = `a` also occurs outside the private region. -/
def c3p : AddObservationParams :=
  ⟨str "s1", str "note", str "T", str "a<private>a</private>", [], [], [], []⟩

/-- **C3 counterexample**: the input content contains
`<private>a</private>`, yet the persisted content `a[REDACTED]` still
contains the secret `a`, refuting the claim's "no persisted content or
title contains X". -/
theorem stripPrivateTags_containment_counterexample :
    containsSub c3p.content (privOpen ++ str "a" ++ privClose) = true ∧
    (AddObservation DefaultConfig emptyDB 0 c3p).2.obs.map (fun o => o.content) =
      [str "a[REDACTED]"] ∧
    containsSub (str "a[REDACTED]") (str "a") = true := by
  decide

theorem stripPrivateTags_redaction_witness :
    stripPrivateTags (str "  a " ++ str "<PrIvAtE>" ++ (str "secret" ++ [10] ++ str "key") ++
        str "</PRIVATE>" ++ str " b  ") = str "a [REDACTED] b" :=
  ((stripPrivateTags_redaction (str "  a ") (str "<PrIvAtE>")
      (str "secret" ++ [10] ++ str "key") (str "</PRIVATE>") (str " b  ")
      (by decide) (by decide) (by decide) (by decide)).1).trans (by decide)

/-! ## Claim C4 -/

/-- Configuration with a 5-byte content cap, for the C4 instances. -/
def c4cfg : Config := ⟨5, 20, 20, 900⟩

/-- An `add_observation` request whose content exceeds the 5-byte cap. -/
def c4p : AddObservationParams :=
  ⟨str "s1", str "note", str "T", str "123456789", [], [], [], []⟩

/-- **C4 counterexample**: with cap 5 and redacted content `123456789`,
the stored content carries the ASCII suffix `... [truncated]` (three
dots), not the claimed single-character-ellipsis suffix
`… [truncated]`. -/
theorem addObservation_truncation_counterexample :
    (AddObservation c4cfg emptyDB 0 c4p).2.obs.map (fun o => o.content) =
      [(str "123456789").take 5 ++ str "... [truncated]"] ∧
    ((str "123456789").take 5 ++ str "... [truncated]" ≠
      (str "123456789").take 5 ++ str "… [truncated]") := by
  decide

/-- **C4 amended** (functional_correctness): for every `add_observation`
input whose redacted content is strictly longer than the configured byte
cap, the stored content equals the first cap bytes of the redacted
content followed by the literal ASCII suffix `... [truncated]`; redacted
content not longer than the cap is stored unchanged.  Every row after
the call either carries this processed content or the content of a
pre-existing row. -/
theorem addObservation_truncation (cfg : Config) (db : DB) (now : Nat)
    (p : AddObservationParams) :
    (cfg.maxObservationLength < (stripPrivateTags p.content).length →
      truncateContent cfg.maxObservationLength (stripPrivateTags p.content) =
        (stripPrivateTags p.content).take cfg.maxObservationLength ++ str "... [truncated]") ∧
    ((stripPrivateTags p.content).length ≤ cfg.maxObservationLength →
      truncateContent cfg.maxObservationLength (stripPrivateTags p.content) =
        stripPrivateTags p.content) ∧
    (∀ o ∈ (AddObservation cfg db now p).2.obs,
      o.content = truncateContent cfg.maxObservationLength (stripPrivateTags p.content) ∨
      ∃ o' ∈ db.obs, o.content = o'.content) := by
  refine ⟨?_, ?_, ?_⟩
  · intro h
    unfold truncateContent
    rw [if_pos h]
  · intro h
    unfold truncateContent
    rw [if_neg (by omega)]
  · intro o ho
    unfold AddObservation at ho
    by_cases hke : (normalizeTopicKey p.topicKey).isEmpty = true
    · simp only [hke, if_true] at ho
      cases hdl : dedupLookup cfg db now
          (hashNormalized (truncateContent cfg.maxObservationLength (stripPrivateTags p.content)))
          (nullableString p.project) (normalizeScope p.scope) p.type
          (stripPrivateTags p.title) with
      | some r =>
        simp only [dedupPhase, hdl, dedupAbsorbApply] at ho
        rcases exists_of_mem_updateById ho with ⟨o', ho', heq | heq⟩
        · exact Or.inr ⟨o', ho', by rw [heq]⟩
        · exact Or.inr ⟨o', ho', by rw [heq]⟩
      | none =>
        simp only [dedupPhase, hdl, insertApply] at ho
        rcases List.mem_append.mp ho with h | h
        · exact Or.inr ⟨o, h, rfl⟩
        · simp only [List.mem_singleton] at h
          exact Or.inl (by rw [h])
    · simp only [hke, if_false] at ho
      cases htl : topicLookup db (normalizeTopicKey p.topicKey) (nullableString p.project)
          (normalizeScope p.scope) with
      | some r =>
        simp only [htl, topicUpsertApply] at ho
        rcases exists_of_mem_updateById ho with ⟨o', ho', heq | heq⟩
        · exact Or.inr ⟨o', ho', by rw [heq]⟩
        · exact Or.inl (by rw [heq])
      | none =>
        simp only [htl] at ho
        cases hdl : dedupLookup cfg db now
            (hashNormalized (truncateContent cfg.maxObservationLength (stripPrivateTags p.content)))
            (nullableString p.project) (normalizeScope p.scope) p.type
            (stripPrivateTags p.title) with
        | some r =>
          simp only [dedupPhase, hdl, dedupAbsorbApply] at ho
          rcases exists_of_mem_updateById ho with ⟨o', ho', heq | heq⟩
          · exact Or.inr ⟨o', ho', by rw [heq]⟩
          · exact Or.inr ⟨o', ho', by rw [heq]⟩
        | none =>
          simp only [dedupPhase, hdl, insertApply] at ho
          rcases List.mem_append.mp ho with h | h
          · exact Or.inr ⟨o, h, rfl⟩
          · simp only [List.mem_singleton] at h
            exact Or.inl (by rw [h])

theorem addObservation_truncation_witness :
    (5 < (stripPrivateTags (str "123456789")).length ∧
      truncateContent 5 (stripPrivateTags (str "123456789")) =
        (stripPrivateTags (str "123456789")).take 5 ++ str "... [truncated]") ∧
    ((stripPrivateTags (str "1234")).length ≤ 5 ∧
      truncateContent 5 (stripPrivateTags (str "1234")) = stripPrivateTags (str "1234")) :=
  ⟨⟨by decide, (addObservation_truncation c4cfg emptyDB 0 c4p).1 (by decide)⟩,
   ⟨by decide,
    (addObservation_truncation c4cfg emptyDB 0 { c4p with content := str "1234" }).2.1
      (by decide)⟩⟩

/-! ## Claim C5 -/

/-- Every token produced by `fieldsAux` is nonempty and draws its bytes
from the input or the accumulator. -/
theorem fieldsAux_tokens : ∀ (s acc : B) (t : B), t ∈ fieldsAux s acc →
    t ≠ [] ∧ ∀ b ∈ t, b ∈ s ∨ b ∈ acc := by
  intro s
  induction s with
  | nil =>
    intro acc t ht
    unfold fieldsAux at ht
    by_cases hacc : acc.isEmpty = true
    · rw [if_pos hacc] at ht; simp at ht
    · rw [if_neg hacc] at ht
      simp only [List.mem_singleton] at ht
      subst ht
      refine ⟨fun h => hacc (by simp [List.isEmpty_iff, ← List.reverse_eq_nil_iff, h]), ?_⟩
      intro b hb
      exact Or.inr (List.mem_reverse.mp hb)
  | cons a s ih =>
    intro acc t ht
    unfold fieldsAux at ht
    by_cases hsp : isSpaceByte a = true
    · rw [if_pos hsp] at ht
      by_cases hacc : acc.isEmpty = true
      · rw [if_pos hacc] at ht
        rcases ih [] t ht with ⟨h1, h2⟩
        refine ⟨h1, fun b hb => ?_⟩
        rcases h2 b hb with h | h
        · exact Or.inl (List.mem_cons_of_mem a h)
        · simp at h
      · rw [if_neg hacc] at ht
        rcases List.mem_cons.mp ht with ht | ht
        · subst ht
          refine ⟨fun h => hacc (by simp [List.isEmpty_iff, ← List.reverse_eq_nil_iff, h]), ?_⟩
          intro b hb
          exact Or.inr (List.mem_reverse.mp hb)
        · rcases ih [] t ht with ⟨h1, h2⟩
          refine ⟨h1, fun b hb => ?_⟩
          rcases h2 b hb with h | h
          · exact Or.inl (List.mem_cons_of_mem a h)
          · simp at h
    · rw [if_neg hsp] at ht
      rcases ih (a :: acc) t ht with ⟨h1, h2⟩
      refine ⟨h1, fun b hb => ?_⟩
      rcases h2 b hb with h | h
      · exact Or.inl (List.mem_cons_of_mem a h)
      · rcases List.mem_cons.mp h with h | h
        · exact Or.inl (h ▸ List.mem_cons_self a s)
        · exact Or.inr h

/-- `dropWhile (== 34)` is the identity on quote-free byte strings. -/
theorem dropWhile_quote_eq_self {w : B} (hw : ∀ b ∈ w, b ≠ 34) :
    w.dropWhile (· == 34) = w := by
  cases w with
  | nil => rfl
  | cons b w =>
    have : (b == 34) = false := by
      have := hw b (List.mem_cons_self b w)
      simp [this]
    simp [List.dropWhile_cons, this]

/-- `strings.Trim(w, "\x22")` is the identity on quote-free tokens. -/
theorem trimQuotes_quotefree {w : B} (hw : ∀ b ∈ w, b ≠ 34) : trimQuotes w = w := by
  unfold trimQuotes
  rw [dropWhile_quote_eq_self hw,
      dropWhile_quote_eq_self (fun b hb => hw b (List.mem_reverse.mp hb)),
      List.reverse_reverse]

/-- Quote-free bytes keep the lexer inside the string. -/
theorem ftsValidAux_inString_skip (w : B) (hw : ∀ b ∈ w, b ≠ 34) :
    ∀ (rest : B) (n : Nat),
      ftsValidAux (w ++ rest) .inString n = ftsValidAux rest .inString n := by
  induction w with
  | nil => intro rest n; rfl
  | cons b w ih =>
    intro rest n
    have hb : (b == 34) = false := by
      have := hw b (List.mem_cons_self b w)
      simp [this]
    simp only [List.cons_append, ftsValidAux, hb, if_false]
    exact ih (fun c hc => hw c (List.mem_cons_of_mem b hc)) rest n

/-- Scanning one emitted phrase `"w"` takes the lexer from `outside` to
`closed` and counts one phrase. -/
theorem ftsValidAux_phrase_step (w : B) (hw : ∀ b ∈ w, b ≠ 34) (rest : B) (n : Nat) :
    ftsValidAux ((34 :: (w ++ [34])) ++ rest) .outside n =
      ftsValidAux rest .closed (n + 1) := by
  have h1 : (34 :: (w ++ [34])) ++ rest = 34 :: (w ++ (34 :: rest)) := by simp
  rw [h1]
  have h2 : ftsValidAux (34 :: (w ++ (34 :: rest))) .outside n =
      ftsValidAux (w ++ (34 :: rest)) .inString n := by
    simp [ftsValidAux, isSpaceByte]
  rw [h2, ftsValidAux_inString_skip w hw]
  simp [ftsValidAux]

/-- The lexer accepts any nonempty whitespace-joined list of quoted
quote-free phrases. -/
theorem ftsValidAux_phrases : ∀ (ts : List B), (∀ t ∈ ts, ∀ b ∈ t, b ≠ 34) → ts ≠ [] →
    ∀ (n : Nat),
      ftsValidAux (joinSep (str " ") (ts.map (fun w => 34 :: (w ++ [34])))) .outside n = true := by
  intro ts
  induction ts with
  | nil => intro _ hne; exact absurd rfl hne
  | cons w ts ih =>
    intro hq _ n
    have hw : ∀ b ∈ w, b ≠ 34 := hq w (List.mem_cons_self w ts)
    cases ts with
    | nil =>
      simp only [List.map_cons, List.map_nil, joinSep]
      have := ftsValidAux_phrase_step w hw [] n
      simpa [ftsValidAux] using this
    | cons w' ts' =>
      have hjoin : joinSep (str " ") (((w :: w' :: ts').map (fun w => 34 :: (w ++ [34])))) =
          (34 :: (w ++ [34])) ++ (str " " ++
            joinSep (str " ") ((w' :: ts').map (fun w => 34 :: (w ++ [34])))) := by
        simp [joinSep]
      rw [hjoin, ftsValidAux_phrase_step w hw]
      have hsp : str " " ++ joinSep (str " ") ((w' :: ts').map (fun w => 34 :: (w ++ [34]))) =
          32 :: joinSep (str " ") ((w' :: ts').map (fun w => 34 :: (w ++ [34]))) := by
        rfl
      rw [hsp]
      have hstep : ftsValidAux
          (32 :: joinSep (str " ") ((w' :: ts').map (fun w => 34 :: (w ++ [34])))) .closed (n + 1) =
          ftsValidAux (joinSep (str " ") ((w' :: ts').map (fun w => 34 :: (w ++ [34])))) .outside (n + 1) := by
        simp [ftsValidAux, isSpaceByte]
      rw [hstep]
      exact ih (fun t ht => hq t (List.mem_cons_of_mem w ht)) (by simp) (n + 1)

/-- **C5 amended** (safety): for any query containing no double-quote byte
and at least one non-whitespace byte, `sanitize_fts_query` yields a
valid FTS5 MATCH expression, and `Search` succeeds; when the sanitized
query matches no indexed observation it returns the empty list rather
than an error.  (Queries containing `"` can produce invalid MATCH
expressions — see the counterexample — and the all-whitespace query
yields the empty expression, which FTS5 rejects.) -/
theorem sanitizeFTS_quotefree_valid (q : B) (hq : ∀ b ∈ q, b ≠ 34)
    (hne : fields q ≠ []) :
    validFTS5 (sanitizeFTS q) = true ∧
    ∀ (ftsMatch : B → Obs → Bool) (rank : Obs → Int) (cfg : Config) (db : DB)
      (opts : SearchOptions), (∀ o, ftsMatch (sanitizeFTS q) o = false) →
        Search ftsMatch rank cfg db q opts = .ok [] := by
  have htok : ∀ t ∈ fields q, ∀ b ∈ t, b ≠ 34 := by
    intro t ht b hb
    rcases (fieldsAux_tokens q [] t ht).2 b hb with h | h
    · exact hq b h
    · simp at h
  have hmap : (fields q).map (fun w => 34 :: (trimQuotes w ++ [34])) =
      (fields q).map (fun w => 34 :: (w ++ [34])) := by
    apply List.map_congr_left
    intro w hw
    rw [trimQuotes_quotefree (htok w hw)]
  have hvalid : validFTS5 (sanitizeFTS q) = true := by
    unfold validFTS5 sanitizeFTS
    rw [hmap]
    exact ftsValidAux_phrases (fields q) htok hne 0
  refine ⟨hvalid, ?_⟩
  intro ftsMatch rank cfg db opts hmf
  unfold Search
  rw [if_pos hvalid]
  have hfil : db.obs.filter (fun o =>
      ftsMatch (sanitizeFTS q) o && o.deletedAt == none &&
      (opts.type.isEmpty || o.type == opts.type) &&
      (opts.project.isEmpty || o.project == some opts.project) &&
      (opts.scope.isEmpty || o.scope == normalizeScope opts.scope)) = [] := by
    apply List.filter_eq_nil_iff.mpr
    intro o _
    simp [hmf o]
  rw [hfil]
  simp [sortLe]

theorem sanitizeFTS_quotefree_valid_witness :
    ((∀ b ∈ str "hello world", b ≠ 34) ∧ fields (str "hello world") ≠ []) ∧
    validFTS5 (sanitizeFTS (str "hello world")) = true ∧
    Search (fun _ _ => false) (fun _ => 0) DefaultConfig sampleDB2 (str "hello world")
      ⟨[], [], [], 0⟩ = .ok [] :=
  ⟨⟨by decide, by decide⟩,
   (sanitizeFTS_quotefree_valid (str "hello world") (by decide) (by decide)).1,
   (sanitizeFTS_quotefree_valid (str "hello world") (by decide) (by decide)).2
     (fun _ _ => false) (fun _ => 0) DefaultConfig sampleDB2 ⟨[], [], [], 0⟩
     (fun _ => rfl)⟩

/-- **C5 counterexample**: the printable query `a"b` sanitizes to
`"a"b"`, which is not a valid FTS5 MATCH expression (the final `"`
opens a string that never closes), and `Search` reports an FTS syntax
error on it rather than succeeding. -/
theorem sanitizeFTS_quote_invalid_counterexample :
    sanitizeFTS (str "a\"b") = str "\"a\"b\"" ∧
    validFTS5 (sanitizeFTS (str "a\"b")) = false ∧
    Search (fun _ _ => true) (fun _ => 0) DefaultConfig sampleDB2 (str "a\"b")
      ⟨[], [], [], 0⟩ = .error (str "search: fts5 syntax error") := by
  refine ⟨by decide, by decide, ?_⟩
  unfold Search
  rw [if_neg (by decide)]

/-! ## Claim C1 -/

/-- Execute a sequence of `add_observation` calls, each at its own clock
time, collecting the returned ids. -/
def runAdds (cfg : Config) : DB → List (AddObservationParams × Nat) → DB × List Int
  | db, [] => (db, [])
  | db, (p, t) :: rest =>
    ((runAdds cfg (AddObservation cfg db t p).2 rest).1,
     (AddObservation cfg db t p).1 :: (runAdds cfg (AddObservation cfg db t p).2 rest).2)

/-- The dedup identity of an `add_observation` call: normalized content
hash, project, scope, type and redacted title. -/
structure DedupKey where
  normHash : B
  project : Option B
  scope : B
  ty : B
  title : B
deriving DecidableEq

/-- The dedup key computed by `AddObservation` from its parameters. -/
def addKey (cfg : Config) (p : AddObservationParams) : DedupKey :=
  ⟨hashNormalized (truncateContent cfg.maxObservationLength (stripPrivateTags p.content)),
   nullableString p.project, normalizeScope p.scope, p.type, stripPrivateTags p.title⟩

/-- The window-independent part of the dedup row filter. -/
def rowMatchesKey (k : DedupKey) (o : Obs) : Bool :=
  o.normalizedHash == some k.normHash &&
  ifnullEmpty o.project == ifnullEmpty k.project &&
  o.scope == k.scope &&
  o.type == k.ty &&
  o.title == k.title &&
  o.deletedAt == none

theorem dedupRowMatches_eq (W now : Nat) (k : DedupKey) (o : Obs) :
    dedupRowMatches W now k.normHash k.project k.scope k.ty k.title o =
      (rowMatchesKey k o && decide (now ≤ o.createdAt + 60 * W)) := by
  simp [dedupRowMatches, rowMatchesKey, Bool.and_assoc]

/-- The row inserted by the fresh-insert branch of `AddObservation`. -/
def insertedRow (cfg : Config) (db : DB) (now : Nat) (p : AddObservationParams) : Obs :=
  { id := nextObsId db, sessionId := p.sessionId, type := p.type,
    title := stripPrivateTags p.title,
    content := truncateContent cfg.maxObservationLength (stripPrivateTags p.content),
    toolName := nullableString p.toolName, project := nullableString p.project,
    scope := normalizeScope p.scope,
    topicKey := nullableString (normalizeTopicKey p.topicKey),
    normalizedHash :=
      some (hashNormalized (truncateContent cfg.maxObservationLength (stripPrivateTags p.content))),
    revisionCount := 1, duplicateCount := 1, lastSeenAt := some now,
    createdAt := now, updatedAt := now, deletedAt := none }

/-- `addKey` unfolded to its components. -/
theorem addKey_def (cfg : Config) (p : AddObservationParams) :
    addKey cfg p =
      ⟨hashNormalized (truncateContent cfg.maxObservationLength (stripPrivateTags p.content)),
       nullableString p.project, normalizeScope p.scope, p.type, stripPrivateTags p.title⟩ :=
  rfl

/-- No row of the store matches the key, so the dedup lookup is empty. -/
theorem dedupLookup_none_of_fresh (cfg : Config) (db : DB) (now : Nat) (nh : B)
    (pr : Option B) (sc ty ttl : B)
    (hfresh : ∀ o ∈ db.obs, rowMatchesKey ⟨nh, pr, sc, ty, ttl⟩ o = false) :
    dedupLookup cfg db now nh pr sc ty ttl = none := by
  unfold dedupLookup
  have hfil : db.obs.filter
      (dedupRowMatches (dedupeWindowMinutes cfg.dedupeWindowSeconds) now nh pr sc ty ttl) =
      [] := by
    apply List.filter_eq_nil_iff.mpr
    intro o ho
    have heq := dedupRowMatches_eq (dedupeWindowMinutes cfg.dedupeWindowSeconds) now
      ⟨nh, pr, sc, ty, ttl⟩ o
    rw [heq]
    simp [hfresh o ho]
  rw [hfil]
  rfl

/-- When the topic branch does not fire and no row matches the dedup key,
`AddObservation` inserts a fresh row under the next autoincrement id. -/
theorem addObservation_inserts (cfg : Config) (db : DB) (now : Nat) (p : AddObservationParams)
    (htopic : (normalizeTopicKey p.topicKey).isEmpty = true ∨
      topicLookup db (normalizeTopicKey p.topicKey) (nullableString p.project)
        (normalizeScope p.scope) = none)
    (hfresh : ∀ o ∈ db.obs, rowMatchesKey (addKey cfg p) o = false) :
    AddObservation cfg db now p =
      (nextObsId db,
       { db with obs := db.obs ++ [insertedRow cfg db now p], obsSeq := nextObsId db }) := by
  rw [addKey_def] at hfresh
  have hlookup : dedupLookup cfg db now
      (hashNormalized (truncateContent cfg.maxObservationLength (stripPrivateTags p.content)))
      (nullableString p.project) (normalizeScope p.scope) p.type
      (stripPrivateTags p.title) = none :=
    dedupLookup_none_of_fresh cfg db now _ _ _ _ _ hfresh
  unfold AddObservation
  rcases htopic with hke | htl
  · simp only [hke, if_true, dedupPhase, hlookup, insertApply, insertedRow]
  · by_cases hke : (normalizeTopicKey p.topicKey).isEmpty = true
    · simp only [hke, if_true, dedupPhase, hlookup, insertApply, insertedRow]
    · simp only [hke, if_false, htl, dedupPhase, hlookup, insertApply, insertedRow]
      simp

theorem map_ite_id_of_ne (r : Obs) (f : Obs → Obs) :
    ∀ (l : List Obs), (∀ o ∈ l, o.id ≠ r.id) →
      l.map (fun o => if o.id == r.id then f o else o) = l := by
  intro l
  induction l with
  | nil => intro _; rfl
  | cons a l ih =>
    intro hl
    simp only [List.map_cons]
    rw [ih (fun o ho => hl o (List.mem_cons_of_mem a ho))]
    have : (a.id == r.id) = false := beq_eq_false_iff_ne.mpr (hl a (List.mem_cons_self a l))
    simp [this]

theorem updateById_append_distinct (base : List Obs) (r : Obs) (f : Obs → Obs)
    (hid : ∀ o ∈ base, o.id ≠ r.id) :
    updateById (base ++ [r]) r.id f = base ++ [f r] := by
  unfold updateById
  rw [List.map_append]
  rw [map_ite_id_of_ne r f base hid]
  simp

/-- One in-window duplicate call absorbs into the existing row. -/
theorem addObservation_absorbs (cfg : Config) (db0 : DB) (t : Nat)
    (p : AddObservationParams) (k : DedupKey) (base : List Obs) (r : Obs)
    (hobs : db0.obs = base ++ [r])
    (haddkey : addKey cfg p = k)
    (htopic : normalizeTopicKey p.topicKey = [])
    (hwin : t ≤ r.createdAt + 60 * dedupeWindowMinutes cfg.dedupeWindowSeconds)
    (hr : rowMatchesKey k r = true)
    (hfresh : ∀ o ∈ base, rowMatchesKey k o = false)
    (hid : ∀ o ∈ base, o.id ≠ r.id) :
    AddObservation cfg db0 t p =
      (r.id, { db0 with obs := base ++ [{ r with
        duplicateCount := r.duplicateCount + 1,
        lastSeenAt := some t, updatedAt := t }] }) := by
  obtain ⟨nh, pr, sc, ty, ttl⟩ := k
  rw [addKey_def] at haddkey
  simp only [DedupKey.mk.injEq] at haddkey
  obtain ⟨h1, h2, h3, h4, h5⟩ := haddkey
  have hlookup : dedupLookup cfg db0 t
      (hashNormalized (truncateContent cfg.maxObservationLength (stripPrivateTags p.content)))
      (nullableString p.project) (normalizeScope p.scope) p.type
      (stripPrivateTags p.title) = some r := by
    rw [h1, h2, h3, h4, h5]
    unfold dedupLookup
    have hfil : db0.obs.filter
        (dedupRowMatches (dedupeWindowMinutes cfg.dedupeWindowSeconds) t
          nh pr sc ty ttl) = [r] := by
      rw [hobs, List.filter_append]
      have hbase : base.filter
          (dedupRowMatches (dedupeWindowMinutes cfg.dedupeWindowSeconds) t
            nh pr sc ty ttl) = [] := by
        apply List.filter_eq_nil_iff.mpr
        intro o ho
        have heq := dedupRowMatches_eq (dedupeWindowMinutes cfg.dedupeWindowSeconds) t
          ⟨nh, pr, sc, ty, ttl⟩ o
        rw [heq]
        simp [hfresh o ho]
      have hsing : List.filter
          (dedupRowMatches (dedupeWindowMinutes cfg.dedupeWindowSeconds) t
            nh pr sc ty ttl) [r] = [r] := by
        have hone : dedupRowMatches (dedupeWindowMinutes cfg.dedupeWindowSeconds) t
            nh pr sc ty ttl r = true := by
          have heq := dedupRowMatches_eq (dedupeWindowMinutes cfg.dedupeWindowSeconds) t
            ⟨nh, pr, sc, ty, ttl⟩ r
          rw [heq]
          simp [hr, hwin]
        simp [List.filter, hone]
      rw [hbase, hsing, List.nil_append]
    rw [hfil]
    rfl
  have hke : (normalizeTopicKey p.topicKey).isEmpty = true := by rw [htopic]; rfl
  unfold AddObservation
  simp only [hke, if_true, dedupPhase, hlookup, dedupAbsorbApply]
  rw [hobs, updateById_append_distinct base r _ hid]

/-- The row resulting from a run of dedup absorptions at the given
times. -/
def absorbedRow (r : Obs) : List Nat → Obs
  | [] => r
  | t :: ts =>
    absorbedRow { r with duplicateCount := r.duplicateCount + 1,
                         lastSeenAt := some t, updatedAt := t } ts

theorem absorbedRow_spec : ∀ (ts : List Nat) (r : Obs),
    (absorbedRow r ts).id = r.id ∧
    (absorbedRow r ts).createdAt = r.createdAt ∧
    (absorbedRow r ts).duplicateCount = r.duplicateCount + ts.length ∧
    (absorbedRow r ts).content = r.content ∧
    (absorbedRow r ts).topicKey = r.topicKey ∧
    (absorbedRow r ts).revisionCount = r.revisionCount ∧
    (absorbedRow r ts).deletedAt = r.deletedAt ∧
    ∀ k, rowMatchesKey k (absorbedRow r ts) = rowMatchesKey k r := by
  intro ts
  induction ts with
  | nil => intro r; simp [absorbedRow]
  | cons t ts ih =>
    intro r
    simp only [absorbedRow]
    rcases ih { r with duplicateCount := r.duplicateCount + 1,
                       lastSeenAt := some t, updatedAt := t } with
      ⟨ha, hb, hc, hd, he, hf, hg, hk⟩
    refine ⟨ha, hb, ?_, hd, he, hf, hg, ?_⟩
    · rw [hc]
      simp only [List.length_cons]
      push_cast
      ring
    · intro k
      rw [hk k]
      simp [rowMatchesKey]

theorem absorbedRow_snoc (ts : List Nat) (t : Nat) : ∀ r : Obs,
    (absorbedRow r (ts ++ [t])).updatedAt = t ∧
    (absorbedRow r (ts ++ [t])).lastSeenAt = some t := by
  induction ts with
  | nil => intro r; simp [absorbedRow]
  | cons u ts ih =>
    intro r
    simp only [List.cons_append, absorbedRow]
    exact ih _

/-- The dedup loop: from a state `base ++ [r]` where `r` is the only row
matching the key, a run of key-equal topic-free in-window calls absorbs
each call into `r` and returns its id every time. -/
theorem runAdds_absorb_loop (cfg : Config) (k : DedupKey) :
    ∀ (rest : List (AddObservationParams × Nat)) (base : List Obs) (r : Obs) (db0 : DB),
      db0.obs = base ++ [r] →
      (∀ q ∈ rest, addKey cfg q.1 = k) →
      (∀ q ∈ rest, normalizeTopicKey q.1.topicKey = []) →
      (∀ q ∈ rest, q.2 ≤ r.createdAt + 60 * dedupeWindowMinutes cfg.dedupeWindowSeconds) →
      rowMatchesKey k r = true →
      (∀ o ∈ base, rowMatchesKey k o = false) →
      (∀ o ∈ base, o.id ≠ r.id) →
      runAdds cfg db0 rest =
        ({ db0 with obs := base ++ [absorbedRow r (rest.map Prod.snd)] },
         List.replicate rest.length r.id) := by
  intro rest
  induction rest with
  | nil =>
    intro base r db0 hobs _ _ _ _ _ _
    simp only [runAdds, absorbedRow, List.map_nil, List.replicate]
    rw [← hobs]
  | cons qt rest ih =>
    intro base r db0 hobs hkeys htopics hwins hr hfresh hid
    obtain ⟨p, t⟩ := qt
    have hstep := addObservation_absorbs cfg db0 t p k base r hobs
      (hkeys (p, t) (List.mem_cons_self _ _))
      (htopics (p, t) (List.mem_cons_self _ _))
      (hwins (p, t) (List.mem_cons_self _ _)) hr hfresh hid
    have hkey' : rowMatchesKey k
        { r with duplicateCount := r.duplicateCount + 1, lastSeenAt := some t, updatedAt := t } =
        true := by
      rw [show rowMatchesKey k
          { r with duplicateCount := r.duplicateCount + 1, lastSeenAt := some t, updatedAt := t } =
          rowMatchesKey k r from by simp [rowMatchesKey]]
      exact hr
    have hrec := ih base
      ({ r with duplicateCount := r.duplicateCount + 1, lastSeenAt := some t, updatedAt := t })
      ({ db0 with obs := base ++
        [{ r with duplicateCount := r.duplicateCount + 1, lastSeenAt := some t, updatedAt := t }] })
      rfl
      (fun q hq => hkeys q (List.mem_cons_of_mem _ hq))
      (fun q hq => htopics q (List.mem_cons_of_mem _ hq))
      (fun q hq => hwins q (List.mem_cons_of_mem _ hq))
      hkey' hfresh hid
    simp only [runAdds, hstep, hrec, List.map_cons, absorbedRow, List.length_cons,
      List.replicate]

/-- **C1** (invariants): for a sequence of `add_observation` calls with
empty normalized topic key whose redacted and truncated inputs share the
same dedup key (normalized content hash, project, scope, type, title),
issued against a store holding no row with that key, with every later
call's clock inside the dedupe window of the first call: the first call
inserts a fresh row, every later call returns the same id, and
afterwards exactly one row matches the key — non-deleted, with
`created_at` the first call's time, `duplicate_count` equal to the call
count, and `last_seen_at`/`updated_at` refreshed to the last call's
time. -/
theorem addObservation_dedup_sequence (cfg : Config) (db : DB)
    (p0 : AddObservationParams) (t0 : Nat) (rest : List (AddObservationParams × Nat))
    (htopic0 : normalizeTopicKey p0.topicKey = [])
    (hkeys : ∀ q ∈ rest, addKey cfg q.1 = addKey cfg p0)
    (htopics : ∀ q ∈ rest, normalizeTopicKey q.1.topicKey = [])
    (hwins : ∀ q ∈ rest, q.2 ≤ t0 + 60 * dedupeWindowMinutes cfg.dedupeWindowSeconds)
    (hfresh : ∀ o ∈ db.obs, rowMatchesKey (addKey cfg p0) o = false) :
    runAdds cfg db ((p0, t0) :: rest) =
      ({ db with
          obs := db.obs ++ [absorbedRow (insertedRow cfg db t0 p0) (rest.map Prod.snd)],
          obsSeq := nextObsId db },
       List.replicate (rest.length + 1) (nextObsId db)) ∧
    ((db.obs ++ [absorbedRow (insertedRow cfg db t0 p0) (rest.map Prod.snd)]).filter
        (rowMatchesKey (addKey cfg p0)) =
      [absorbedRow (insertedRow cfg db t0 p0) (rest.map Prod.snd)]) ∧
    (absorbedRow (insertedRow cfg db t0 p0) (rest.map Prod.snd)).duplicateCount =
      1 + rest.length ∧
    (absorbedRow (insertedRow cfg db t0 p0) (rest.map Prod.snd)).createdAt = t0 ∧
    (absorbedRow (insertedRow cfg db t0 p0) (rest.map Prod.snd)).deletedAt = none ∧
    (absorbedRow (insertedRow cfg db t0 p0) (rest.map Prod.snd)).id = nextObsId db ∧
    (absorbedRow (insertedRow cfg db t0 p0) (rest.map Prod.snd)).content =
      truncateContent cfg.maxObservationLength (stripPrivateTags p0.content) ∧
    ∀ (ts : List Nat) (t : Nat), rest.map Prod.snd = ts ++ [t] →
      (absorbedRow (insertedRow cfg db t0 p0) (rest.map Prod.snd)).updatedAt = t ∧
      (absorbedRow (insertedRow cfg db t0 p0) (rest.map Prod.snd)).lastSeenAt = some t := by
  have hrowkey : rowMatchesKey (addKey cfg p0) (insertedRow cfg db t0 p0) = true := by
    simp [rowMatchesKey, addKey, insertedRow]
  have hins := addObservation_inserts cfg db t0 p0 (Or.inl (by rw [htopic0]; rfl)) hfresh
  have hids : ∀ o ∈ db.obs, o.id ≠ (insertedRow cfg db t0 p0).id := by
    intro o ho
    have := id_lt_nextObsId ho
    simp only [insertedRow]
    omega
  have hloop := runAdds_absorb_loop cfg (addKey cfg p0) rest db.obs
    (insertedRow cfg db t0 p0)
    { db with obs := db.obs ++ [insertedRow cfg db t0 p0], obsSeq := nextObsId db }
    rfl hkeys htopics
    (by intro q hq; rw [show (insertedRow cfg db t0 p0).createdAt = t0 from rfl]
        exact hwins q hq)
    hrowkey hfresh hids
  obtain ⟨hsid, hscr, hsdup, hscont, hstk, hsrev, hsdel, hskey⟩ :=
    absorbedRow_spec (rest.map Prod.snd) (insertedRow cfg db t0 p0)
  refine ⟨?_, ?_, ?_, ?_, ?_, ?_, ?_, ?_⟩
  · simp only [runAdds, hins, hloop, List.length_map, List.replicate_succ]
    rfl
  · rw [List.filter_append]
    have hbase : db.obs.filter (rowMatchesKey (addKey cfg p0)) = [] :=
      List.filter_eq_nil_iff.mpr (fun o ho => by simp [hfresh o ho])
    have hsing : List.filter (rowMatchesKey (addKey cfg p0))
        [absorbedRow (insertedRow cfg db t0 p0) (rest.map Prod.snd)] =
        [absorbedRow (insertedRow cfg db t0 p0) (rest.map Prod.snd)] := by
      have : rowMatchesKey (addKey cfg p0)
          (absorbedRow (insertedRow cfg db t0 p0) (rest.map Prod.snd)) = true := by
        rw [hskey _]
        exact hrowkey
      simp [List.filter, this]
    rw [hbase, hsing, List.nil_append]
  · exact hsdup.trans (by simp [insertedRow])
  · exact hscr.trans rfl
  · exact hsdel.trans rfl
  · exact hsid.trans rfl
  · exact hscont.trans rfl
  · intro ts t hsnoc
    rw [hsnoc]
    exact absorbedRow_snoc ts t _

/-- First C1 witness call: project `engram`, no topic key. -/
def c1p0 : AddObservationParams :=
  ⟨str "s1", str "bugfix", str "Fixed tokenizer",
   str "Normalized tokenizer panic on edge case", [], str "engram", [], []⟩

/-- Second C1 witness call: whitespace/case-variant content, same key. -/
def c1p1 : AddObservationParams :=
  { c1p0 with content := str "normalized   tokenizer panic on EDGE case" }

theorem addObservation_dedup_sequence_witness :
    (runAdds DefaultConfig emptyDB [(c1p0, 0), (c1p1, 100)]).2 =
      List.replicate 2 (nextObsId emptyDB) ∧
    ((runAdds DefaultConfig emptyDB [(c1p0, 0), (c1p1, 100)]).1.obs.filter
        (rowMatchesKey (addKey DefaultConfig c1p0))).map (fun o => o.duplicateCount) =
      [2] := by
  have h := addObservation_dedup_sequence DefaultConfig emptyDB c1p0 0 [(c1p1, 100)]
    (by decide) (by decide) (by decide) (by decide) (by decide)
  refine ⟨?_, ?_⟩
  · rw [h.1]
    rfl
  · have hobs : (runAdds DefaultConfig emptyDB [(c1p0, 0), (c1p1, 100)]).1.obs =
        emptyDB.obs ++
          [absorbedRow (insertedRow DefaultConfig emptyDB 0 c1p0)
            ([(c1p1, 100)].map Prod.snd)] := by
      rw [h.1]
    rw [hobs, h.2.1, List.map_singleton, h.2.2.1]
    decide

/-! ## Claim C2 -/

/-- The row resulting from a run of topic upserts with the given
parameters and times. -/
def upsertRow (cfg : Config) (r : Obs) : List (AddObservationParams × Nat) → Obs
  | [] => r
  | (p, t) :: rest =>
    upsertRow cfg
      { r with
        type := p.type, title := stripPrivateTags p.title,
        content := truncateContent cfg.maxObservationLength (stripPrivateTags p.content),
        toolName := nullableString p.toolName,
        topicKey := nullableString (normalizeTopicKey p.topicKey),
        normalizedHash := some (hashNormalized
          (truncateContent cfg.maxObservationLength (stripPrivateTags p.content))),
        revisionCount := r.revisionCount + 1,
        lastSeenAt := some t, updatedAt := t } rest

theorem upsertRow_spec (cfg : Config) : ∀ (rest : List (AddObservationParams × Nat)) (r : Obs),
    (upsertRow cfg r rest).id = r.id ∧
    (upsertRow cfg r rest).createdAt = r.createdAt ∧
    (upsertRow cfg r rest).sessionId = r.sessionId ∧
    (upsertRow cfg r rest).project = r.project ∧
    (upsertRow cfg r rest).scope = r.scope ∧
    (upsertRow cfg r rest).duplicateCount = r.duplicateCount ∧
    (upsertRow cfg r rest).deletedAt = r.deletedAt ∧
    (upsertRow cfg r rest).revisionCount = r.revisionCount + rest.length := by
  intro rest
  induction rest with
  | nil => intro r; simp [upsertRow]
  | cons qt rest ih =>
    intro r
    obtain ⟨p, t⟩ := qt
    simp only [upsertRow]
    rcases ih { r with
        type := p.type, title := stripPrivateTags p.title,
        content := truncateContent cfg.maxObservationLength (stripPrivateTags p.content),
        toolName := nullableString p.toolName,
        topicKey := nullableString (normalizeTopicKey p.topicKey),
        normalizedHash := some (hashNormalized
          (truncateContent cfg.maxObservationLength (stripPrivateTags p.content))),
        revisionCount := r.revisionCount + 1,
        lastSeenAt := some t, updatedAt := t } with
      ⟨h1, h2, h3, h4, h5, h6, h7, h8⟩
    refine ⟨h1, h2, h3, h4, h5, h6, h7, ?_⟩
    rw [h8]
    simp only [List.length_cons]
    push_cast
    ring

theorem upsertRow_snoc (cfg : Config) (qs : List (AddObservationParams × Nat))
    (q : AddObservationParams × Nat) : ∀ r : Obs,
    (upsertRow cfg r (qs ++ [q])).type = q.1.type ∧
    (upsertRow cfg r (qs ++ [q])).title = stripPrivateTags q.1.title ∧
    (upsertRow cfg r (qs ++ [q])).content =
      truncateContent cfg.maxObservationLength (stripPrivateTags q.1.content) ∧
    (upsertRow cfg r (qs ++ [q])).toolName = nullableString q.1.toolName ∧
    (upsertRow cfg r (qs ++ [q])).topicKey = nullableString (normalizeTopicKey q.1.topicKey) ∧
    (upsertRow cfg r (qs ++ [q])).normalizedHash =
      some (hashNormalized (truncateContent cfg.maxObservationLength (stripPrivateTags q.1.content))) ∧
    (upsertRow cfg r (qs ++ [q])).updatedAt = q.2 ∧
    (upsertRow cfg r (qs ++ [q])).lastSeenAt = some q.2 := by
  induction qs with
  | nil =>
    intro r
    obtain ⟨p, t⟩ := q
    simp [upsertRow]
  | cons u qs ih =>
    intro r
    obtain ⟨p, t⟩ := u
    simp only [List.cons_append, upsertRow]
    exact ih _

/-- When a row matching the topic triple is current, `AddObservation`
updates it in place through the topic-upsert branch. -/
theorem addObservation_topic_upserts (cfg : Config) (db0 : DB) (t : Nat)
    (p : AddObservationParams) (k : B) (pr : Option B) (sc : B)
    (base : List Obs) (r : Obs)
    (hobs : db0.obs = base ++ [r])
    (hk : normalizeTopicKey p.topicKey = k)
    (hke : k ≠ [])
    (hpr : nullableString p.project = pr)
    (hsc : normalizeScope p.scope = sc)
    (hr : topicRowMatches k pr sc r = true)
    (hfresh : ∀ o ∈ base, topicRowMatches k pr sc o = false)
    (hid : ∀ o ∈ base, o.id ≠ r.id) :
    AddObservation cfg db0 t p =
      (r.id, { db0 with obs := base ++ [{ r with
        type := p.type, title := stripPrivateTags p.title,
        content := truncateContent cfg.maxObservationLength (stripPrivateTags p.content),
        toolName := nullableString p.toolName,
        topicKey := nullableString k,
        normalizedHash := some (hashNormalized
          (truncateContent cfg.maxObservationLength (stripPrivateTags p.content))),
        revisionCount := r.revisionCount + 1,
        lastSeenAt := some t, updatedAt := t }] }) := by
  have hkemp : k.isEmpty = false := by
    cases k with
    | nil => exact absurd rfl hke
    | cons a l => rfl
  have hlookup : topicLookup db0 k (nullableString p.project)
      (normalizeScope p.scope) = some r := by
    rw [hpr, hsc]
    unfold topicLookup
    have hfil : db0.obs.filter (topicRowMatches k pr sc) = [r] := by
      rw [hobs, List.filter_append]
      have hbase : base.filter (topicRowMatches k pr sc) = [] :=
        List.filter_eq_nil_iff.mpr (fun o ho => by simp [hfresh o ho])
      have hsing : List.filter (topicRowMatches k pr sc) [r] = [r] := by
        simp [List.filter, hr]
      rw [hbase, hsing, List.nil_append]
    rw [hfil]
    rfl
  unfold AddObservation
  rw [hk]
  simp only [hkemp, Bool.false_eq_true, if_false, hlookup, topicUpsertApply]
  rw [hobs, updateById_append_distinct base r _ hid]

/-- The topic-upsert loop: from a state `base ++ [r]` where `r` is the
only current row of the topic triple, every call of the run updates `r`
in place and returns its id. -/
theorem runAdds_upsert_loop (cfg : Config) (k : B) (pr : Option B) (sc : B) (hke : k ≠ []) :
    ∀ (rest : List (AddObservationParams × Nat)) (base : List Obs) (r : Obs) (db0 : DB),
      db0.obs = base ++ [r] →
      (∀ q ∈ rest, normalizeTopicKey q.1.topicKey = k) →
      (∀ q ∈ rest, nullableString q.1.project = pr) →
      (∀ q ∈ rest, normalizeScope q.1.scope = sc) →
      topicRowMatches k pr sc r = true →
      (∀ o ∈ base, topicRowMatches k pr sc o = false) →
      (∀ o ∈ base, o.id ≠ r.id) →
      runAdds cfg db0 rest =
        ({ db0 with obs := base ++ [upsertRow cfg r rest] },
         List.replicate rest.length r.id) := by
  intro rest
  induction rest with
  | nil =>
    intro base r db0 hobs _ _ _ _ _ _
    simp only [runAdds, upsertRow, List.replicate]
    rw [← hobs]
  | cons qt rest ih =>
    intro base r db0 hobs hks hprs hscs hr hfresh hid
    obtain ⟨p, t⟩ := qt
    have hstep := addObservation_topic_upserts cfg db0 t p k pr sc base r hobs
      (hks (p, t) (List.mem_cons_self _ _)) hke
      (hprs (p, t) (List.mem_cons_self _ _))
      (hscs (p, t) (List.mem_cons_self _ _)) hr hfresh hid
    have hkey' : topicRowMatches k pr sc
        { r with
          type := p.type, title := stripPrivateTags p.title,
          content := truncateContent cfg.maxObservationLength (stripPrivateTags p.content),
          toolName := nullableString p.toolName,
          topicKey := nullableString k,
          normalizedHash := some (hashNormalized
            (truncateContent cfg.maxObservationLength (stripPrivateTags p.content))),
          revisionCount := r.revisionCount + 1,
          lastSeenAt := some t, updatedAt := t } = true := by
      simp only [topicRowMatches, Bool.and_eq_true] at hr ⊢
      refine ⟨⟨⟨?_, hr.1.1.2⟩, hr.1.2⟩, hr.2⟩
      have : nullableString k = some k := by
        unfold nullableString
        rw [if_neg (by simpa [List.isEmpty_iff] using hke)]
      simp [this]
    have hrec := ih base
      ({ r with
          type := p.type, title := stripPrivateTags p.title,
          content := truncateContent cfg.maxObservationLength (stripPrivateTags p.content),
          toolName := nullableString p.toolName,
          topicKey := nullableString k,
          normalizedHash := some (hashNormalized
            (truncateContent cfg.maxObservationLength (stripPrivateTags p.content))),
          revisionCount := r.revisionCount + 1,
          lastSeenAt := some t, updatedAt := t })
      ({ db0 with obs := base ++
        [{ r with
          type := p.type, title := stripPrivateTags p.title,
          content := truncateContent cfg.maxObservationLength (stripPrivateTags p.content),
          toolName := nullableString p.toolName,
          topicKey := nullableString k,
          normalizedHash := some (hashNormalized
            (truncateContent cfg.maxObservationLength (stripPrivateTags p.content))),
          revisionCount := r.revisionCount + 1,
          lastSeenAt := some t, updatedAt := t }] })
      rfl
      (fun q hq => hks q (List.mem_cons_of_mem _ hq))
      (fun q hq => hprs q (List.mem_cons_of_mem _ hq))
      (fun q hq => hscs q (List.mem_cons_of_mem _ hq))
      hkey' hfresh hid
    have hup : upsertRow cfg r ((p, t) :: rest) =
        upsertRow cfg
          { r with
            type := p.type, title := stripPrivateTags p.title,
            content := truncateContent cfg.maxObservationLength (stripPrivateTags p.content),
            toolName := nullableString p.toolName,
            topicKey := nullableString k,
            normalizedHash := some (hashNormalized
              (truncateContent cfg.maxObservationLength (stripPrivateTags p.content))),
            revisionCount := r.revisionCount + 1,
            lastSeenAt := some t, updatedAt := t } rest := by
      simp only [upsertRow]
      rw [hks (p, t) (List.mem_cons_self _ _)]
    simp only [runAdds, hstep, hrec, hup, List.length_cons, List.replicate]

/-- **C2** (invariants): for a sequence of `add_observation` calls sharing
the same non-empty normalized topic key and the same `(project, scope)`,
issued against a store holding no current row of that topic triple and
no row matching the first call's dedup key: exactly one current
observation exists afterwards; each call after the first updates that
row in place — refreshing its `type`, `title`, `content`, `tool_name`
and `normalized_hash`, incrementing `revision_count` to the call count —
returns the same id, and preserves the row's `created_at` and
`duplicate_count`.  Moreover, whenever the topic lookup finds a row,
`AddObservation` equals the topic-upsert branch outright, so the
hash-dedup branch is never evaluated. -/
theorem addObservation_topic_sequence (cfg : Config) (db : DB)
    (p0 : AddObservationParams) (t0 : Nat) (rest : List (AddObservationParams × Nat))
    (hk0 : normalizeTopicKey p0.topicKey ≠ [])
    (hks : ∀ q ∈ rest, normalizeTopicKey q.1.topicKey = normalizeTopicKey p0.topicKey)
    (hprs : ∀ q ∈ rest, nullableString q.1.project = nullableString p0.project)
    (hscs : ∀ q ∈ rest, normalizeScope q.1.scope = normalizeScope p0.scope)
    (hfreshT : ∀ o ∈ db.obs, topicRowMatches (normalizeTopicKey p0.topicKey)
      (nullableString p0.project) (normalizeScope p0.scope) o = false)
    (hfreshH : ∀ o ∈ db.obs, rowMatchesKey (addKey cfg p0) o = false) :
    runAdds cfg db ((p0, t0) :: rest) =
      ({ db with
          obs := db.obs ++ [upsertRow cfg (insertedRow cfg db t0 p0) rest],
          obsSeq := nextObsId db },
       List.replicate (rest.length + 1) (nextObsId db)) ∧
    ((db.obs ++ [upsertRow cfg (insertedRow cfg db t0 p0) rest]).filter
        (topicRowMatches (normalizeTopicKey p0.topicKey) (nullableString p0.project)
          (normalizeScope p0.scope)) =
      [upsertRow cfg (insertedRow cfg db t0 p0) rest]) ∧
    (upsertRow cfg (insertedRow cfg db t0 p0) rest).revisionCount = 1 + rest.length ∧
    (upsertRow cfg (insertedRow cfg db t0 p0) rest).createdAt = t0 ∧
    (upsertRow cfg (insertedRow cfg db t0 p0) rest).duplicateCount = 1 ∧
    (upsertRow cfg (insertedRow cfg db t0 p0) rest).deletedAt = none ∧
    (upsertRow cfg (insertedRow cfg db t0 p0) rest).id = nextObsId db ∧
    (∀ (qs : List (AddObservationParams × Nat)) (q : AddObservationParams × Nat),
      rest = qs ++ [q] →
        (upsertRow cfg (insertedRow cfg db t0 p0) rest).content =
          truncateContent cfg.maxObservationLength (stripPrivateTags q.1.content) ∧
        (upsertRow cfg (insertedRow cfg db t0 p0) rest).type = q.1.type ∧
        (upsertRow cfg (insertedRow cfg db t0 p0) rest).title = stripPrivateTags q.1.title ∧
        (upsertRow cfg (insertedRow cfg db t0 p0) rest).toolName = nullableString q.1.toolName ∧
        (upsertRow cfg (insertedRow cfg db t0 p0) rest).normalizedHash =
          some (hashNormalized
            (truncateContent cfg.maxObservationLength (stripPrivateTags q.1.content))) ∧
        (upsertRow cfg (insertedRow cfg db t0 p0) rest).updatedAt = q.2) ∧
    (∀ (db' : DB) (now : Nat) (p : AddObservationParams) (row : Obs),
      (normalizeTopicKey p.topicKey).isEmpty = false →
      topicLookup db' (normalizeTopicKey p.topicKey) (nullableString p.project)
        (normalizeScope p.scope) = some row →
      AddObservation cfg db' now p =
        topicUpsertApply db' now p (stripPrivateTags p.title)
          (truncateContent cfg.maxObservationLength (stripPrivateTags p.content))
          (hashNormalized (truncateContent cfg.maxObservationLength (stripPrivateTags p.content)))
          (normalizeTopicKey p.topicKey) row.id) := by
  have hkemp : (normalizeTopicKey p0.topicKey).isEmpty = false := by
    cases hc : normalizeTopicKey p0.topicKey with
    | nil => exact absurd hc hk0
    | cons a l => rfl
  have hnks : nullableString (normalizeTopicKey p0.topicKey) =
      some (normalizeTopicKey p0.topicKey) := by
    unfold nullableString
    rw [hkemp]
    simp
  have hrowkey : topicRowMatches (normalizeTopicKey p0.topicKey) (nullableString p0.project)
      (normalizeScope p0.scope) (insertedRow cfg db t0 p0) = true := by
    simp [topicRowMatches, insertedRow, hnks]
  have hins := addObservation_inserts cfg db t0 p0
    (Or.inr (by
      unfold topicLookup
      rw [List.filter_eq_nil_iff.mpr (fun o ho => by simp [hfreshT o ho])]
      rfl))
    hfreshH
  have hids : ∀ o ∈ db.obs, o.id ≠ (insertedRow cfg db t0 p0).id := by
    intro o ho
    have := id_lt_nextObsId ho
    simp only [insertedRow]
    omega
  have hloop := runAdds_upsert_loop cfg (normalizeTopicKey p0.topicKey)
    (nullableString p0.project) (normalizeScope p0.scope) hk0 rest db.obs
    (insertedRow cfg db t0 p0)
    { db with obs := db.obs ++ [insertedRow cfg db t0 p0], obsSeq := nextObsId db }
    rfl hks hprs hscs hrowkey hfreshT hids
  obtain ⟨hsid, hscr, hssid, hsproj, hssc, hsdup, hsdel, hsrev⟩ :=
    upsertRow_spec cfg rest (insertedRow cfg db t0 p0)
  refine ⟨?_, ?_, ?_, ?_, ?_, ?_, ?_, ?_, ?_⟩
  · simp only [runAdds, hins, hloop, List.replicate_succ]
    rfl
  · rw [List.filter_append]
    have hbase : db.obs.filter (topicRowMatches (normalizeTopicKey p0.topicKey)
        (nullableString p0.project) (normalizeScope p0.scope)) = [] :=
      List.filter_eq_nil_iff.mpr (fun o ho => by simp [hfreshT o ho])
    have hmatch : topicRowMatches (normalizeTopicKey p0.topicKey) (nullableString p0.project)
        (normalizeScope p0.scope) (upsertRow cfg (insertedRow cfg db t0 p0) rest) = true := by
      rcases List.eq_nil_or_concat rest with hr | ⟨qs, q, hr⟩
      · rw [hr]
        exact hrowkey
      · rw [List.concat_eq_append] at hr
        subst hr
        obtain ⟨_, _, _, _, htk, _, _, _⟩ :=
          upsertRow_snoc cfg qs q (insertedRow cfg db t0 p0)
        simp only [topicRowMatches, Bool.and_eq_true] at hrowkey ⊢
        refine ⟨⟨⟨?_, ?_⟩, ?_⟩, ?_⟩
        · rw [htk, hks q (by simp), hnks]
          simp
        · rw [hsproj]
          exact hrowkey.1.1.2
        · rw [hssc]
          exact hrowkey.1.2
        · rw [hsdel]
          exact hrowkey.2
    rw [hbase, List.nil_append]
    simp [List.filter, hmatch]
  · rw [hsrev]
    simp [insertedRow]
  · exact hscr.trans rfl
  · exact hsdup.trans rfl
  · exact hsdel.trans rfl
  · exact hsid.trans rfl
  · intro qs q hr
    subst hr
    obtain ⟨ht, httl, hct, htn, _, hnh, hup, _⟩ :=
      upsertRow_snoc cfg qs q (insertedRow cfg db t0 p0)
    exact ⟨hct, ht, httl, htn, hnh, hup⟩
  · intro db' now p row hkemp' hlook
    unfold AddObservation
    simp only [hkemp', Bool.false_eq_true, if_false, hlook]

/-- First C2 witness call: topic key `architecture auth model`. -/
def c2p0 : AddObservationParams :=
  ⟨str "s1", str "architecture", str "Auth architecture",
   str "Use middleware for JWT validation.", [], str "engram", [],
   str "architecture auth model"⟩

/-- Second C2 witness call: same topic modulo normalization, new
content. -/
def c2p1 : AddObservationParams :=
  { c2p0 with content := str "Move auth to gateway.",
              topicKey := str "ARCHITECTURE   AUTH  MODEL" }

theorem addObservation_topic_sequence_witness :
    (runAdds DefaultConfig emptyDB [(c2p0, 0), (c2p1, 100)]).2 =
      List.replicate 2 (nextObsId emptyDB) ∧
    ((runAdds DefaultConfig emptyDB [(c2p0, 0), (c2p1, 100)]).1.obs.filter
        (topicRowMatches (normalizeTopicKey c2p0.topicKey) (nullableString c2p0.project)
          (normalizeScope c2p0.scope))).map
        (fun o => (o.revisionCount, o.createdAt, o.content)) =
      [(2, 0, truncateContent DefaultConfig.maxObservationLength
        (stripPrivateTags c2p1.content))] := by
  have h := addObservation_topic_sequence DefaultConfig emptyDB c2p0 0 [(c2p1, 100)]
    (by decide) (by decide) (by decide) (by decide) (by decide) (by decide)
  refine ⟨?_, ?_⟩
  · rw [h.1]
    rfl
  · have hobs : (runAdds DefaultConfig emptyDB [(c2p0, 0), (c2p1, 100)]).1.obs =
        emptyDB.obs ++ [upsertRow DefaultConfig (insertedRow DefaultConfig emptyDB 0 c2p0)
          [(c2p1, 100)]] := by
      rw [h.1]
    have hsn := h.2.2.2.2.2.2.2.1 [] (c2p1, 100) rfl
    rw [hobs, h.2.1, List.map_singleton, h.2.2.1, h.2.2.2.1, hsn.1]
    decide

/-! ## Claim C7 -/

theorem perm_insertLe {α : Type} (le : α → α → Bool) (a : α) :
    ∀ (l : List α), List.Perm (insertLe le a l) (a :: l) := by
  intro l
  induction l with
  | nil => simp [insertLe]
  | cons b l ih =>
    simp only [insertLe]
    split
    · exact List.Perm.refl _
    · exact (List.Perm.cons b ih).trans (List.Perm.swap a b l)

theorem perm_sortLe {α : Type} (le : α → α → Bool) :
    ∀ (l : List α), List.Perm (sortLe le l) l := by
  intro l
  induction l with
  | nil => simp [sortLe]
  | cons a l ih =>
    simp only [sortLe]
    exact (perm_insertLe le a _).trans (List.Perm.cons a ih)

/-- Observation ids as reassigned by the import's `AUTOINCREMENT`
starting after id `m`, with `normalized_hash` recomputed from the
content and all other fields preserved. -/
def reassignIds : List Obs → Int → List Obs
  | [], _ => []
  | o :: rest, m =>
    { o with id := m + 1, normalizedHash := some (hashNormalized o.content) } ::
      reassignIds rest (m + 1)

theorem reassignIds_length : ∀ (os : List Obs) (m : Int),
    (reassignIds os m).length = os.length := by
  intro os
  induction os with
  | nil => intro m; rfl
  | cons o os ih => intro m; simp [reassignIds, ih]

/-- Prompt rows as reassigned by the import, all fields preserved. -/
def reassignPromptIds : List Prompt → Int → List Prompt
  | [], _ => []
  | p :: rest, m => { p with id := m + 1 } :: reassignPromptIds rest (m + 1)

theorem reassignPromptIds_length : ∀ (ps : List Prompt) (m : Int),
    (reassignPromptIds ps m).length = ps.length := by
  intro ps
  induction ps with
  | nil => intro m; rfl
  | cons p ps ih => intro m; simp [reassignPromptIds, ih]

/-- An observation row as the store itself writes it: scope and topic key
already normalized, counters at least 1. -/
def wfObsRow (o : Obs) : Prop :=
  normalizeScope o.scope = o.scope ∧
  nullableString (normalizeTopicKey (derefString o.topicKey)) = o.topicKey ∧
  max o.revisionCount 1 = o.revisionCount ∧
  max o.duplicateCount 1 = o.duplicateCount

instance wfObsRowDecidable (o : Obs) : Decidable (wfObsRow o) := by
  unfold wfObsRow
  infer_instance

theorem importSessions_all_new : ∀ (ss : List Session) (db : DB) (n : Nat),
    (∀ s ∈ ss, ∀ t ∈ db.sessions, t.id ≠ s.id) →
    (ss.map Session.id).Nodup →
    importSessions ss db n = ({ db with sessions := db.sessions ++ ss }, n + ss.length) := by
  intro ss
  induction ss with
  | nil => intro db n _ _; simp [importSessions]
  | cons s ss ih =>
    intro db n hnew hnd
    simp only [List.map_cons, List.nodup_cons] at hnd
    have hany : db.sessions.any (fun t => t.id == s.id) = false := by
      rw [List.any_eq_false]
      intro t ht
      simp [hnew s (List.mem_cons_self s ss) t ht]
    simp only [importSessions, hany, Bool.false_eq_true, if_false]
    rw [ih { db with sessions := db.sessions ++ [s] } (n + 1) ?_ hnd.2]
    · simp only [List.append_assoc, List.singleton_append, List.length_cons]
      congr 1
      omega
    · intro s' hs' t ht
      rcases List.mem_append.mp ht with ht | ht
      · exact hnew s' (List.mem_cons_of_mem s hs') t ht
      · simp only [List.mem_singleton] at ht
        subst ht
        intro hc
        exact hnd.1 (hc ▸ List.mem_map_of_mem Session.id hs')

theorem maxObsId_append_singleton (l : List Obs) (x : Obs) :
    maxObsId (l ++ [x]) = max (maxObsId l) x.id := by
  unfold maxObsId
  rw [List.foldl_append]
  rfl

theorem importObs_go : ∀ (os : List Obs) (db : DB) (n m : Nat),
    (∀ o ∈ os, ∃ s ∈ db.sessions, s.id = o.sessionId) →
    (∀ o ∈ os, wfObsRow o) →
    db.obsSeq = (m : Int) →
    maxObsId db.obs ≤ (m : Int) →
    ∃ db', importObs os db n = some (db', n + os.length) ∧
      db'.sessions = db.sessions ∧ db'.prompts = db.prompts ∧
      db'.promptSeq = db.promptSeq ∧
      db'.obs = db.obs ++ reassignIds os (m : Int) := by
  intro os
  induction os with
  | nil =>
    intro db n m _ _ _ _
    exact ⟨db, by simp [importObs], rfl, rfl, rfl, by simp [reassignIds]⟩
  | cons o os ih =>
    intro db n m hfk hwf hseq hmax
    obtain ⟨s, hs, hsid⟩ := hfk o (List.mem_cons_self o os)
    have hany : db.sessions.any (fun t => t.id == o.sessionId) = true := by
      rw [List.any_eq_true]
      exact ⟨s, hs, by simp [hsid]⟩
    have hnext : nextObsId db = (m : Int) + 1 := by
      unfold nextObsId
      rw [hseq, max_eq_left hmax]
    obtain ⟨hscope, htk, hrev, hdup⟩ := hwf o (List.mem_cons_self o os)
    have hrow : ({ o with
        id := (m : Int) + 1,
        scope := normalizeScope o.scope,
        topicKey := nullableString (normalizeTopicKey (derefString o.topicKey)),
        normalizedHash := some (hashNormalized o.content),
        revisionCount := max o.revisionCount 1,
        duplicateCount := max o.duplicateCount 1 } : Obs) =
        { o with id := (m : Int) + 1,
                 normalizedHash := some (hashNormalized o.content) } := by
      rw [hscope, htk, hrev, hdup]
    obtain ⟨db', hrun, hsess, hpr, hps, hobs⟩ := ih
      { db with
        obs := db.obs ++ [{ o with id := (m : Int) + 1, normalizedHash := some (hashNormalized o.content) }],
        obsSeq := (m : Int) + 1 }
      (n + 1) (m + 1)
      (fun o' ho' => hfk o' (List.mem_cons_of_mem o ho'))
      (fun o' ho' => hwf o' (List.mem_cons_of_mem o ho'))
      (by push_cast; rfl)
      (by rw [maxObsId_append_singleton]
          have h2 :
              ({ o with id := (m : Int) + 1, normalizedHash := some (hashNormalized o.content) } : Obs).id
              = (m : Int) + 1 := rfl
          rw [h2]
          push_cast
          omega)
    refine ⟨db', ?_, hsess, hpr, hps, ?_⟩
    · simp only [importObs, hany, if_true, hnext, hrow, hrun, List.length_cons]
      congr 2
      omega
    · rw [hobs]
      simp only [reassignIds, List.append_assoc, List.singleton_append]
      push_cast
      rfl

theorem importPrompts_go : ∀ (ps : List Prompt) (db : DB) (n m : Nat),
    (∀ p ∈ ps, ∃ s ∈ db.sessions, s.id = p.sessionId) →
    db.promptSeq = (m : Int) →
    maxPromptId db.prompts ≤ (m : Int) →
    ∃ db', importPrompts ps db n = some (db', n + ps.length) ∧
      db'.sessions = db.sessions ∧ db'.obs = db.obs ∧
      db'.obsSeq = db.obsSeq ∧
      db'.prompts = db.prompts ++ reassignPromptIds ps (m : Int) := by
  intro ps
  induction ps with
  | nil =>
    intro db n m _ _ _
    exact ⟨db, by simp [importPrompts], rfl, rfl, rfl, by simp [reassignPromptIds]⟩
  | cons p ps ih =>
    intro db n m hfk hseq hmax
    obtain ⟨s, hs, hsid⟩ := hfk p (List.mem_cons_self p ps)
    have hany : db.sessions.any (fun t => t.id == p.sessionId) = true := by
      rw [List.any_eq_true]
      exact ⟨s, hs, by simp [hsid]⟩
    have hnext : nextPromptId db = (m : Int) + 1 := by
      unfold nextPromptId
      rw [hseq, max_eq_left hmax]
    obtain ⟨db', hrun, hsess, hobs, hseq', hps⟩ := ih
      { db with
        prompts := db.prompts ++ [{ p with id := (m : Int) + 1 }],
        promptSeq := (m : Int) + 1 }
      (n + 1) (m + 1)
      (fun p' hp' => hfk p' (List.mem_cons_of_mem p hp'))
      (by push_cast; rfl)
      (by have : maxPromptId (db.prompts ++ [{ p with id := (m : Int) + 1 }]) =
            max (maxPromptId db.prompts) ((m : Int) + 1) := by
            unfold maxPromptId
            rw [List.foldl_append]
            rfl
          rw [this]
          push_cast
          omega)
    refine ⟨db', ?_, hsess, hobs, hseq', ?_⟩
    · simp only [importPrompts, hany, if_true, hnext, hrun, List.length_cons]
      congr 2
      omega
    · rw [hps]
      simp only [reassignPromptIds, List.append_assoc, List.singleton_append]
      push_cast
      rfl

/-- **C7** (algebraic_relational): `Export` followed by `Import` into an
empty store succeeds as one transaction and yields session, observation
and prompt row counts equal to the original database; sessions are
inserted with `INSERT OR IGNORE` keyed on id, observation and prompt
ids are reassigned by autoincrement (1, 2, …), each observation's
`normalized_hash` is recomputed from its content, and every other field
— including `revision_count`, `duplicate_count`, `created_at`,
`updated_at` and `deleted_at` — is preserved (`reassignIds` /
`reassignPromptIds` change nothing else).  The hypotheses state that
the source database is well formed, exactly as the store maintains it:
unique session ids, foreign keys intact, scope/topic-key normalized and
counters at least 1. -/
theorem export_import_roundtrip (db : DB) (now : Nat)
    (hnds : (db.sessions.map Session.id).Nodup)
    (hfkO : ∀ o ∈ db.obs, ∃ s ∈ db.sessions, s.id = o.sessionId)
    (hfkP : ∀ p ∈ db.prompts, ∃ s ∈ db.sessions, s.id = p.sessionId)
    (hwf : ∀ o ∈ db.obs, wfObsRow o) :
    ∃ res db2, Import emptyDB (Export db now) = some (res, db2) ∧
      res.sessionsImported = db.sessions.length ∧
      res.observationsImported = db.obs.length ∧
      res.promptsImported = db.prompts.length ∧
      db2.sessions.length = db.sessions.length ∧
      db2.obs.length = db.obs.length ∧
      db2.prompts.length = db.prompts.length ∧
      db2.sessions = (Export db now).sessions ∧
      db2.obs = reassignIds (Export db now).observations 0 ∧
      db2.prompts = reassignPromptIds (Export db now).prompts 0 := by
  have hpermS : List.Perm (Export db now).sessions db.sessions := perm_sortLe _ _
  have hpermO : List.Perm (Export db now).observations db.obs := perm_sortLe _ _
  have hpermP : List.Perm (Export db now).prompts db.prompts := perm_sortLe _ _
  have hS := importSessions_all_new (Export db now).sessions emptyDB 0
    (fun s _ t ht => absurd ht (List.not_mem_nil t))
    (((hpermS.map Session.id).nodup_iff).mpr hnds)
  have hO := importObs_go (Export db now).observations
    { emptyDB with sessions := emptyDB.sessions ++ (Export db now).sessions } 0 0
    (fun o ho => by
      obtain ⟨s, hs, hsid⟩ := hfkO o (hpermO.mem_iff.mp ho)
      exact ⟨s, List.mem_append.mpr (Or.inr (hpermS.mem_iff.mpr hs)), hsid⟩)
    (fun o ho => hwf o (hpermO.mem_iff.mp ho))
    rfl (by simp [maxObsId, emptyDB])
  obtain ⟨db2', hrunO, hsessO, hprO, hpsO, hobsO⟩ := hO
  have hP := importPrompts_go (Export db now).prompts db2' 0 0
    (fun p hp => by
      obtain ⟨s, hs, hsid⟩ := hfkP p (hpermP.mem_iff.mp hp)
      rw [hsessO]
      exact ⟨s, List.mem_append.mpr (Or.inr (hpermS.mem_iff.mpr hs)), hsid⟩)
    (by rw [hpsO]; rfl)
    (by rw [hprO]; simp [maxPromptId, emptyDB])
  obtain ⟨db3, hrunP, hsessP, hobsP, _, hpromP⟩ := hP
  refine ⟨⟨(Export db now).sessions.length,
          (Export db now).observations.length,
          (Export db now).prompts.length⟩, db3, ?_, ?_, ?_, ?_, ?_, ?_, ?_, ?_, ?_, ?_⟩
  · simp only [Import, hS, hrunO, hrunP, Nat.zero_add]
  · exact hpermS.length_eq
  · exact hpermO.length_eq
  · exact hpermP.length_eq
  · rw [hsessP, hsessO]
    simp [emptyDB, hpermS.length_eq]
  · rw [hobsP, hobsO]
    simp [emptyDB, reassignIds_length, hpermO.length_eq]
  · rw [hpromP, hprO]
    simp [emptyDB, reassignPromptIds_length, hpermP.length_eq]
  · rw [hsessP, hsessO]
    simp [emptyDB]
  · rw [hobsP, hobsO]
    simp only [emptyDB, List.nil_append]
    rfl
  · rw [hpromP, hprO]
    simp only [emptyDB, List.nil_append]
    rfl

/-- A well-formed sample database for the C7 witness. -/
def c7db : DB :=
  ⟨[⟨str "s1", str "engram", str "/d", 0, none, none⟩],
   [{ id := 4, sessionId := str "s1", type := str "note", title := str "T",
      content := str "hello world", toolName := none, project := some (str "engram"),
      scope := str "project", topicKey := none,
      normalizedHash := some (hashNormalized (str "hello world")),
      revisionCount := 2, duplicateCount := 3, lastSeenAt := some 7,
      createdAt := 1, updatedAt := 7, deletedAt := none }],
   [⟨1, str "s1", str "a prompt", some (str "engram"), 5⟩], 4, 1⟩

theorem export_import_roundtrip_witness :
    ∃ res db2, Import emptyDB (Export c7db 10) = some (res, db2) ∧
      res.sessionsImported = c7db.sessions.length ∧
      res.observationsImported = c7db.obs.length ∧
      res.promptsImported = c7db.prompts.length ∧
      db2.sessions.length = c7db.sessions.length ∧
      db2.obs.length = c7db.obs.length ∧
      db2.prompts.length = c7db.prompts.length ∧
      db2.sessions = (Export c7db 10).sessions ∧
      db2.obs = reassignIds (Export c7db 10).observations 0 ∧
      db2.prompts = reassignPromptIds (Export c7db 10).prompts 0 :=
  export_import_roundtrip c7db 10 (by decide) (by decide) (by decide) (by decide)

/-! ## Claim C8 -/

theorem keepIdsAux_length : ∀ (rows : List LegacyObs) (seen : List Int),
    (keepIdsAux rows seen).length = rows.length := by
  intro rows
  induction rows with
  | nil => intro seen; rfl
  | cons l rest ih =>
    intro seen
    unfold keepIdsAux
    cases l.id with
    | none => simp [ih]
    | some i =>
      by_cases hc : i ∈ seen
      · simp [hc, ih]
      · simp [hc, ih]

theorem keepIds_length (rows : List LegacyObs) : (keepIds rows).length = rows.length :=
  keepIdsAux_length rows []

theorem not_mem_map_id_of_any_false {acc : List Obs} {j : Int}
    (h : acc.any (fun o => o.id == j) = false) : j ∉ acc.map Obs.id := by
  rw [List.any_eq_false] at h
  intro hmem
  rcases List.mem_map.mp hmem with ⟨o, ho, hoid⟩
  exact h o ho (by simp [hoid])

theorem nodup_append_fresh {acc : List Obs} {r : Obs}
    (hnd : (acc.map Obs.id).Nodup) (hnew : r.id ∉ acc.map Obs.id) :
    ((acc ++ [r]).map Obs.id).Nodup := by
  rw [List.map_append]
  simp only [List.map_cons, List.map_nil]
  rw [List.nodup_append]
  exact ⟨hnd, List.nodup_singleton _, by
    intro a ha hb
    simp only [List.mem_singleton] at hb
    subst hb
    exact hnew ha⟩

/-- Characterization of the migration's row-copy loop on success: the
output extends the accumulator with one migrated row per legacy row,
ids stay pairwise distinct, a kept id is the legacy id, and a fresh
autoincrement id is positive. -/
theorem migrateInsertAux_spec (now : Nat) :
    ∀ (l : List (LegacyObs × Option Int)) (acc : List Obs) (seq : Int)
      (obs : List Obs) (seq' : Int),
      migrateInsertAux now l acc seq = some (obs, seq') →
      (acc.map Obs.id).Nodup →
      ∃ newRows,
        obs = acc ++ newRows ∧
        List.Forall₂ (fun (li : LegacyObs × Option Int) (r : Obs) =>
          r = migrateRow now li.1 r.id ∧
          (∀ j, li.2 = some j → r.id = j) ∧
          (li.2 = none → 0 < r.id)) l newRows ∧
        (obs.map Obs.id).Nodup := by
  intro l
  induction l with
  | nil =>
    intro acc seq obs seq' h hnd
    simp only [migrateInsertAux, Option.some.injEq, Prod.mk.injEq] at h
    exact ⟨[], by simp [← h.1], List.Forall₂.nil, h.1 ▸ hnd⟩
  | cons lk rest ih =>
    intro acc seq obs seq' h hnd
    obtain ⟨lo, keep⟩ := lk
    cases keep with
    | some j =>
      simp only [migrateInsertAux] at h
      by_cases hc : acc.any (fun o => o.id == j) = true
      · rw [if_pos hc] at h
        exact absurd h (by simp)
      · rw [if_neg hc] at h
        have hnew : j ∉ acc.map Obs.id :=
          not_mem_map_id_of_any_false (by simpa using hc)
        have hrid : (migrateRow now lo j).id = j := rfl
        have hnd' : ((acc ++ [migrateRow now lo j]).map Obs.id).Nodup :=
          nodup_append_fresh hnd (hrid ▸ hnew)
        obtain ⟨newRows, hobs, hfa, hnd''⟩ := ih _ _ _ _ h hnd'
        refine ⟨migrateRow now lo j :: newRows, ?_, ?_, hnd''⟩
        · rw [hobs]
          simp
        · exact List.Forall₂.cons
            ⟨by rw [hrid], fun j' hj' => by
              simp only [Option.some.injEq] at hj'
              rw [hrid, hj'], fun hc' => by simp at hc'⟩ hfa
    | none =>
      simp only [migrateInsertAux] at h
      have hpos : (0 : Int) < max seq (maxObsId acc) + 1 := by
        have h0 : (0 : Int) ≤ maxObsId acc := init_le_foldl_max acc 0
        have h1 : maxObsId acc ≤ max seq (maxObsId acc) := le_max_right _ _
        omega
      have hgt : ∀ a ∈ acc.map Obs.id, a ≠ max seq (maxObsId acc) + 1 := by
        intro a ha
        rcases List.mem_map.mp ha with ⟨o, ho, hoid⟩
        have h1 := id_le_maxObsId ho
        have h2 : maxObsId acc ≤ max seq (maxObsId acc) := le_max_right _ _
        omega
      have hnew : (max seq (maxObsId acc) + 1) ∉ acc.map Obs.id := by
        intro hmem
        exact hgt _ hmem rfl
      have hrid : (migrateRow now lo (max seq (maxObsId acc) + 1)).id =
          max seq (maxObsId acc) + 1 := rfl
      have hnd' : ((acc ++ [migrateRow now lo (max seq (maxObsId acc) + 1)]).map
          Obs.id).Nodup := nodup_append_fresh hnd (hrid ▸ hnew)
      obtain ⟨newRows, hobs, hfa, hnd''⟩ := ih _ _ _ _ h hnd'
      refine ⟨migrateRow now lo (max seq (maxObsId acc) + 1) :: newRows, ?_, ?_, hnd''⟩
      · rw [hobs]
        simp
      · exact List.Forall₂.cons
          ⟨by rw [hrid], fun j' hj' => by simp at hj', fun _ => by rw [hrid]; exact hpos⟩ hfa

/-- **C8 amended** (functional_correctness): on a legacy observations
table (an `id` column that is not a declared primary key) the schema
manager migrates once, inside a single transaction (`none` models the
rolled-back failure, which leaves the table unchanged): every row is
copied in rowid order; the first occurrence of each id keeps its
original id and all later occurrences and NULL ids receive fresh
autoincrement ids; afterwards all ids are pairwise distinct and every
freshly assigned id is positive (a kept legacy id retains its original,
possibly non-positive, value); each copied row carries the column
coercions of `migrateRow` (null/empty `type` → `manual`, null/empty
`title` → `Untitled observation`, created/updated timestamps preserved
when present); the FTS index is rebuilt from exactly the rows with
`deleted_at IS NULL`; and a canonical table is never migrated again. -/
theorem migrateLegacy_spec (now : Nat) (rows : List LegacyObs) (m : MigratedTable)
    (h : migrateLegacyObservationsTable now rows = some m) :
    m.obs.length = rows.length ∧
    (m.obs.map Obs.id).Nodup ∧
    List.Forall₂ (fun (li : LegacyObs × Option Int) (r : Obs) =>
      r = migrateRow now li.1 r.id ∧
      (∀ j, li.2 = some j → r.id = j) ∧
      (li.2 = none → 0 < r.id)) (rows.zip (keepIds rows)) m.obs ∧
    m.fts = m.obs.filter (fun o => o.deletedAt == none) ∧
    migrateIfNeeded now (.legacy rows) = some (.canonical m) ∧
    (∀ t, migrateIfNeeded now (.canonical t) = some (.canonical t)) := by
  unfold migrateLegacyObservationsTable at h
  cases hrun : migrateInsertAux now (rows.zip (keepIds rows)) [] 0 with
  | none => rw [hrun] at h; exact absurd h (by simp)
  | some out =>
    rw [hrun] at h
    obtain ⟨obs, seq⟩ := out
    simp only [Option.some.injEq] at h
    obtain ⟨newRows, hobs, hfa, hnd⟩ :=
      migrateInsertAux_spec now (rows.zip (keepIds rows)) [] 0 obs seq hrun (by simp)
    simp only [List.nil_append] at hobs
    subst hobs
    refine ⟨?_, ?_, ?_, ?_, ?_, ?_⟩
    · rw [← h]
      have hlen := hfa.length_eq
      rw [← hlen]
      simp [List.length_zip, keepIds_length]
    · rw [← h]
      exact hnd
    · rw [← h]
      exact hfa
    · rw [← h]
    · have hmig : migrateLegacyObservationsTable now rows = some m := by
        unfold migrateLegacyObservationsTable
        rw [hrun]
        exact congrArg some h
      show (migrateLegacyObservationsTable now rows).map ObsTable.canonical =
        some (ObsTable.canonical m)
      rw [hmig]
      rfl
    · intro t
      rfl

/-- A legacy row carrying the non-positive id `-5`. -/
def c8row : LegacyObs :=
  ⟨some (-5), str "s1", some (str "note"), some (str "T"), some (str "c"),
   none, none, some (str "project"), none, none, some 1, some 1, none,
   some 3, some 4, none⟩

/-- **C8 counterexample**: migrating a legacy table whose single row has
id `-5` succeeds and keeps `-5`, so "afterwards every row has a
distinct positive id" is false — the kept id is not positive. -/
theorem migrateLegacy_counterexample :
    ∃ m, migrateLegacyObservationsTable 100 [c8row] = some m ∧
      m.obs.map Obs.id = [-5] ∧ ¬(∀ r ∈ m.obs, 0 < r.id) := by
  refine ⟨⟨[migrateRow 100 c8row (-5)], 0, [migrateRow 100 c8row (-5)]⟩, ?_, ?_, ?_⟩
  · decide
  · decide
  · decide

/-- Legacy rows with a duplicate id family (7, 7) and a NULL id. -/
def c8rows : List LegacyObs :=
  [{ c8row with id := some 7 },
   { c8row with id := some 7, content := some (str "second") },
   { c8row with id := none, type := none, title := some [] }]

theorem migrateLegacy_spec_witness :
    ∃ m, migrateLegacyObservationsTable 5 c8rows = some m ∧
      m.obs.length = c8rows.length ∧
      (m.obs.map Obs.id).Nodup ∧
      m.fts = m.obs.filter (fun o => o.deletedAt == none) := by
  have hsome : (migrateLegacyObservationsTable 5 c8rows).isSome = true := by decide
  obtain ⟨m, hm⟩ := Option.isSome_iff_exists.mp hsome
  have h := migrateLegacy_spec 5 c8rows m hm
  exact ⟨m, hm, h.1, h.2.1, h.2.2.2.1⟩

end Engram
